import Mathlib

/-!
Ring buffer communication module (ring_buf_comm.c).

Shallow embedding of `ring_buf_comm.c` / `ring_buf_comm.h` and proofs of the
properties stated for it.

Modelling conventions.

* `char` is `Fin 256`; `size_t` values are natural numbers, and the two places
  where the C arithmetic can wrap (`RING_BUF_SIZE - (tail - head)` and
  `index + 1`) carry an explicit `% SIZE_MOD` with `SIZE_MOD = 2 ^ 64`.
* A `char` array reached through a pointer (`rb->buffer`, `rcvr`, `data`) is a
  map from index to byte.  Only indices below the declared size exist in C;
  every theorem that depends on the stored bytes assumes the indices in range.
* A C string (`terminator`) is the list of bytes stored at the pointer; its
  string value is the part before the first NUL byte (`cstr`), and `strlen` is
  the length of that part.
* A pointer argument is an `Option`: `none` is the null pointer, `some v` a
  valid pointer whose pointee currently holds `v`.  The result of a call holds
  the returned value and the pointees after the call.
-/

namespace RingBuf

/-- Type of a C `char`. -/
abbrev Byte := Fin 256

/-- Number of values of `size_t`. -/
def SIZE_MOD : Nat := 2 ^ 64

/-- Macro `RING_BUF_SIZE` of ring_buf_comm.h. -/
def RING_BUF_SIZE : Nat := 1024

/-- Struct `RingBuffer` of ring_buf_comm.h. -/
structure RingBuffer where
  buffer : Nat → Byte
  head : Nat
  tail : Nat
  overflow : Bool

/-- Struct `RingBufComm` of ring_buf_comm.h; the function pointer `rx_callback`
is an optional address. -/
structure RingBufComm where
  rx_buffer : RingBuffer
  tx_buffer : RingBuffer
  terminator : List Byte
  rx_callback_threshold : Nat
  rx_callback : Option Nat

/-- String value of a C string: the bytes before the first NUL. -/
def cstr (s : List Byte) : List Byte := s.takeWhile (fun b => b != 0)

/-- C library `strlen`. -/
def strlen (s : List Byte) : Nat := (cstr s).length

/-- Function `ring_buf_available` (ring_buf_comm.c, lines 11-13). -/
def ring_buf_available (rb : RingBuffer) : Nat :=
  if rb.head ≥ rb.tail then rb.head - rb.tail
  else (RING_BUF_SIZE + SIZE_MOD - (rb.tail - rb.head)) % SIZE_MOD

/-- The inner `for` loop of `ring_buf_comm_read` (lines 39-45): `n` is the number
of iterations left, `j` the loop variable, `base` is `i - term_len`.  Returns
the final value of `match`. -/
def match_loop (rcvr : Nat → Byte) (terminator : List Byte) (base : Nat) :
    Nat → Nat → Bool
  | 0, _ => true
  | n + 1, j =>
    if rcvr (base + j) ≠ terminator.getD j 0 then false
    else match_loop rcvr terminator base n (j + 1)

/-- Local variables of `ring_buf_comm_read` when its `while` loop is left. -/
structure ReadLoop where
  rcvr : Nat → Byte
  i : Nat
  temp_tail : Nat
  found_terminator : Bool

/-- The `while` loop of `ring_buf_comm_read` (lines 32-51), by recursion on
`available`, which every iteration decrements. -/
def read_loop (rb : RingBuffer) (terminator : List Byte) (term_len rcvr_len : Nat) :
    Nat → (Nat → Byte) → Nat → Nat → ReadLoop
  | 0, rcvr, i, temp_tail => ⟨rcvr, i, temp_tail, false⟩
  | available + 1, rcvr, i, temp_tail =>
    if i < rcvr_len then
      let rcvr1 := Function.update rcvr i (rb.buffer temp_tail)
      let i1 := i + 1
      let temp_tail1 := ((temp_tail + 1) % SIZE_MOD) % RING_BUF_SIZE
      if i1 ≥ term_len ∧ match_loop rcvr1 terminator (i1 - term_len) term_len 0 = true then
        ⟨rcvr1, i1, temp_tail1, true⟩
      else read_loop rb terminator term_len rcvr_len available rcvr1 i1 temp_tail1
    else ⟨rcvr, i, temp_tail, false⟩

/-- Outcome of a `ring_buf_comm_read` call: the returned value and the pointees
of its pointer arguments after the call. -/
structure ReadResult where
  ret : Bool
  comm : Option RingBufComm
  rcvr : Option (Nat → Byte)
  read_len : Option Nat
  overflow : Option Bool

/-- Function `ring_buf_comm_read` (ring_buf_comm.c, lines 15-61). -/
def ring_buf_comm_read (comm : Option RingBufComm) (rcvr : Option (Nat → Byte))
    (rcvr_len : Nat) (terminator : Option (List Byte)) (read_len : Option Nat)
    (overflow : Option Bool) (peek : Bool) : ReadResult :=
  match comm, rcvr, read_len, terminator, overflow with
  | some c, some dst, some _, some term, some _ =>
    let rb := c.rx_buffer
    let overflow1 := rb.overflow
    let term_len := strlen term
    let available := ring_buf_available rb
    if available = 0 then ⟨false, some c, some dst, some 0, some overflow1⟩
    else
      let l := read_loop rb term term_len rcvr_len available dst 0 rb.tail
      let rb1 : RingBuffer :=
        if peek then rb
        else if l.found_terminator then { rb with tail := l.temp_tail, overflow := false }
        else { rb with tail := l.temp_tail }
      ⟨l.found_terminator, some { c with rx_buffer := rb1 }, some l.rcvr, some l.i,
        some overflow1⟩
  | _, _, _, _, _ => ⟨false, comm, rcvr, read_len, overflow⟩

/-- Local state of the `for` loop of `ring_buf_comm_write` when the function
returns: the value returned, the transmit buffer and `*written_len`. -/
structure WriteLoop where
  ret : Bool
  rb : RingBuffer
  written_len : Nat

/-- The `for` loop of `ring_buf_comm_write` (lines 69-76): `n` is the number of
iterations left (`data_len - i`). -/
def write_loop (data : Nat → Byte) : Nat → Nat → RingBuffer → Nat → WriteLoop
  | 0, _, rb, written_len => ⟨true, rb, written_len⟩
  | n + 1, i, rb, written_len =>
    let next_head := ((rb.head + 1) % SIZE_MOD) % RING_BUF_SIZE
    if next_head = rb.tail then ⟨false, rb, written_len⟩
    else
      write_loop data n (i + 1)
        { rb with buffer := Function.update rb.buffer rb.head (data i), head := next_head }
        (written_len + 1)

/-- Outcome of a `ring_buf_comm_write` call. -/
structure WriteResult where
  ret : Bool
  comm : Option RingBufComm
  written_len : Option Nat

/-- Function `ring_buf_comm_write` (ring_buf_comm.c, lines 63-77). -/
def ring_buf_comm_write (comm : Option RingBufComm) (data : Option (Nat → Byte))
    (data_len : Nat) (written_len : Option Nat) : WriteResult :=
  match comm, data, written_len with
  | some c, some d, some _ =>
    let l := write_loop d data_len 0 c.tx_buffer 0
    ⟨l.ret, some { c with tx_buffer := l.rb }, some l.written_len⟩
  | _, _, _ => ⟨false, comm, written_len⟩

/-- Macro `DEFAULT_TERMINATOR` of ring_buf_comm.h, as the bytes of the string
literal (newline, NUL). -/
def DEFAULT_TERMINATOR : List Byte := [10, 0]

/-- C library `strncpy dst src n` on the first `n` bytes of `dst`: the string
value of `src` cut to `n` bytes, padded with NUL up to `n`; the rest of `dst`
is kept. -/
def strncpy (dst src : List Byte) (n : Nat) : List Byte :=
  let s := (cstr src).take n
  s ++ List.replicate (n - s.length) 0 ++ dst.drop n

/-- Function `ring_buf_comm_init` (ring_buf_comm.c, lines 5-9); the argument is
the memory of the struct before the call. -/
def ring_buf_comm_init (_comm : RingBufComm) : RingBufComm :=
  let zeroed : RingBufComm :=
    { rx_buffer := ⟨fun _ => 0, 0, 0, false⟩
      tx_buffer := ⟨fun _ => 0, 0, 0, false⟩
      terminator := List.replicate 8 0
      rx_callback_threshold := 0
      rx_callback := none }
  { zeroed with
    terminator := strncpy zeroed.terminator DEFAULT_TERMINATOR (8 - 1)
    rx_callback_threshold := RING_BUF_SIZE }

/-- Function `ring_buf_comm_set_callback` (ring_buf_comm.c, lines 79-81). -/
def ring_buf_comm_set_callback (comm : Option RingBufComm) (callback : Option Nat) :
    Option RingBufComm :=
  match comm with
  | some c => some { c with rx_callback := callback }
  | none => none

/-! ## Specification-side notions -/

/-- Logical FIFO contents of a ring buffer: the `ring_buf_available` bytes that
start at the read index, wrapping modulo `RING_BUF_SIZE`. -/
def contents (rb : RingBuffer) : List Byte :=
  (List.range (ring_buf_available rb)).map
    (fun j => rb.buffer ((rb.tail + j) % RING_BUF_SIZE))

/-- Both indices of a ring buffer lie in `[0, RING_BUF_SIZE)`. -/
def InRange (rb : RingBuffer) : Prop :=
  rb.head < RING_BUF_SIZE ∧ rb.tail < RING_BUF_SIZE

/-- The first `n` bytes of a byte array, as a list. -/
def bytes (m : Nat → Byte) (n : Nat) : List Byte := (List.range n).map m

/-- The `j`-th logical byte of a ring buffer: the byte stored at physical
position `(tail + j) mod RING_BUF_SIZE`. -/
def logical (rb : RingBuffer) (j : Nat) : Byte :=
  rb.buffer ((rb.tail + j) % RING_BUF_SIZE)

/-- Terminator `t` ends at position `k` of `D`, with `k` at most `m`:
`|t| ≤ k ≤ m` and `D[k - |t| .. k) = t`. -/
def TermAt (D t : List Byte) (m k : Nat) : Prop :=
  t.length ≤ k ∧ k ≤ m ∧ (D.take k).drop (k - t.length) = t

/-- The `L` bytes of the sequence `f` that end at position `k` are the first `L`
bytes of `term`. -/
def MatchAt (f : Nat → Byte) (term : List Byte) (L k : Nat) : Prop :=
  L ≤ k ∧ ∀ j, j < L → f (k - L + j) = term.getD j 0

/-- Result of the last of `n + 1` consecutive peek calls made with the same
arguments: every call after the first finds in the pointees what the call
before left there. -/
def peek_repeat (c : RingBufComm) (dst : Nat → Byte) (cap : Nat) (tm : List Byte)
    (rl : Nat) (ov : Bool) : Nat → ReadResult
  | 0 => ring_buf_comm_read (some c) (some dst) cap (some tm) (some rl) (some ov) true
  | n + 1 =>
    ring_buf_comm_read (peek_repeat c dst cap tm rl ov n).comm
      (peek_repeat c dst cap tm rl ov n).rcvr cap (some tm)
      (peek_repeat c dst cap tm rl ov n).read_len
      (peek_repeat c dst cap tm rl ov n).overflow true

/-- Session after a finite sequence of `ring_buf_comm_write` calls, each given
by its `data` array and its `data_len`. -/
def write_seq : Option RingBufComm → List ((Nat → Byte) × Nat) → Option RingBufComm
  | comm, [] => comm
  | comm, call :: rest =>
    write_seq (ring_buf_comm_write comm (some call.1) call.2 (some 0)).comm rest

/-- Session after `k` consecutive one-byte `ring_buf_comm_write` calls, call
number `q` (from 0) writing the byte `src q`. -/
def single_writes (src : Nat → Byte) (comm : Option RingBufComm) : Nat → Option RingBufComm
  | 0 => comm
  | k + 1 =>
    (ring_buf_comm_write (single_writes src comm k) (some (fun _ => src k)) 1 (some 0)).comm

/-- Outcome of one write-then-read round on a single ring buffer. -/
structure RoundTrip where
  accepted : Bool
  written_len : Nat
  found : Bool
  read_len : Nat
  rcvr : Nat → Byte
  rb : RingBuffer

/-- One round on the ring buffer `rb`: `ring_buf_comm_write` fills it as the
transmit buffer of the session `c`, then a destructive `ring_buf_comm_read`
reads the same ring buffer as the receive buffer.  The value is `none` only if
a call leaves a pointee undefined. -/
def round_trip (c : RingBufComm) (rb : RingBuffer) (data : Nat → Byte) (N : Nat)
    (dst : Nat → Byte) (cap : Nat) (tm : List Byte) : Option RoundTrip :=
  match ring_buf_comm_write (some { c with tx_buffer := rb }) (some data) N (some 0) with
  | ⟨accepted, some c1, some w⟩ =>
    match ring_buf_comm_read (some { c1 with rx_buffer := c1.tx_buffer }) (some dst) cap
        (some tm) (some 0) (some false) false with
    | ⟨found, some c2, some out, some n, some _⟩ =>
      some ⟨accepted, w, found, n, out, c2.rx_buffer⟩
    | _ => none
  | _ => none

/-- The ring buffer after `n` rounds made with the same arguments. -/
def round_trips (c : RingBufComm) (data : Nat → Byte) (N : Nat) (dst : Nat → Byte)
    (cap : Nat) (tm : List Byte) : Nat → RingBuffer → Option RingBuffer
  | 0, rb => some rb
  | n + 1, rb =>
    (round_trips c data N dst cap tm n rb).bind
      (fun rb1 => (round_trip c rb1 data N dst cap tm).map (fun r => r.rb))

/-- One call of the module on a session: the function called and its arguments
other than the session. -/
inductive Op where
  | init
  | read (rcvr : Option (Nat → Byte)) (rcvr_len : Nat) (terminator : Option (List Byte))
      (read_len : Option Nat) (overflow : Option Bool) (peek : Bool)
  | write (data : Option (Nat → Byte)) (data_len : Nat) (written_len : Option Nat)
  | set_callback (callback : Option Nat)

/-- The session after one call.  `ring_buf_comm_init` is only modelled on a valid
session (the C function dereferences its argument without a check). -/
def step (comm : Option RingBufComm) : Op → Option RingBufComm
  | Op.init => comm.map ring_buf_comm_init
  | Op.read rcvr rcvr_len terminator read_len overflow peek =>
    (ring_buf_comm_read comm rcvr rcvr_len terminator read_len overflow peek).comm
  | Op.write data data_len written_len =>
    (ring_buf_comm_write comm data data_len written_len).comm
  | Op.set_callback callback => ring_buf_comm_set_callback comm callback

/-- The session after a finite sequence of calls. -/
def run (comm : Option RingBufComm) (ops : List Op) : Option RingBufComm :=
  ops.foldl step comm

/-- The session with the two fields a destructive read may change, the read
index and the overflow flag of the receive buffer, set to fixed values. -/
def erase_rx_cursor (c : RingBufComm) : RingBufComm :=
  { c with rx_buffer := { c.rx_buffer with tail := 0, overflow := false } }

/-! ## Example states -/

/-- Storage with every byte zero. -/
def zeroStore : Nat → Byte := fun _ => 0

/-- Storage that holds the five bytes h, i, newline, y, o from physical index
1022 on, wrapping to index 0 after index 1023. -/
def wrapStore : Nat → Byte := fun p =>
  if p = 1022 then 104 else if p = 1023 then 105 else if p = 0 then 10
  else if p = 1 then 121 else if p = 2 then 111 else 0

/-- Session whose receive buffer holds the five bytes of `wrapStore` (read index
1022, write index 3) with the overflow flag set; the transmit buffer is empty. -/
def wrapComm : RingBufComm :=
  { rx_buffer := ⟨wrapStore, 3, 1022, true⟩
    tx_buffer := ⟨zeroStore, 0, 0, false⟩
    terminator := [10, 0, 0, 0, 0, 0, 0, 0]
    rx_callback_threshold := 1024
    rx_callback := none }

/-- Storage that holds the byte A at the last physical index, 1023, and the byte
B at index 0. -/
def abStore : Nat → Byte := fun p =>
  if p = 1023 then 65 else if p = 0 then 66 else 0

/-- Session whose receive buffer holds the two bytes of `abStore` (read index
1023, write index 1). -/
def abComm : RingBufComm :=
  { rx_buffer := ⟨abStore, 1, 1023, false⟩
    tx_buffer := ⟨zeroStore, 0, 0, false⟩
    terminator := [10, 0, 0, 0, 0, 0, 0, 0]
    rx_callback_threshold := 1024
    rx_callback := none }

/-- The C string AB. -/
def termAB : List Byte := [65, 66, 0]

/-- Session whose receive buffer is empty at index 7 with the overflow flag
set. -/
def idleComm : RingBufComm :=
  { rx_buffer := ⟨wrapStore, 7, 7, true⟩
    tx_buffer := ⟨zeroStore, 0, 0, false⟩
    terminator := [10, 0, 0, 0, 0, 0, 0, 0]
    rx_callback_threshold := 1024
    rx_callback := none }

/-- Ring buffer that is empty at index 1022, two slots before the wrap point. -/
def edgeBuffer : RingBuffer := ⟨zeroStore, 1022, 1022, false⟩

/-- Array that holds the five bytes h, e, l, l, o. -/
def helloData : Nat → Byte := fun q =>
  if q = 0 then 104 else if q = 1 then 101 else if q = 2 then 108
  else if q = 3 then 108 else if q = 4 then 111 else 0

/-- Storage that holds the five bytes h, i, newline, y, o at physical indices
0 to 4 and zero elsewhere. -/
def scenarioStore : Nat → Byte := fun p =>
  if p = 0 then 104 else if p = 1 then 105 else if p = 2 then 10
  else if p = 3 then 121 else if p = 4 then 111 else 0

/-- An initialised session after a simulated ingest of the five bytes of
`scenarioStore` into the receive buffer: read index 0, write index 5, overflow
flag clear. -/
def scenarioComm (s : RingBufComm) : RingBufComm :=
  { ring_buf_comm_init s with rx_buffer := ⟨scenarioStore, 5, 0, false⟩ }

/-- The empty C string: a NUL byte alone. -/
def emptyTerm : List Byte := [0]

/-- The C string that holds a single newline. -/
def newline : List Byte := [10, 0]

/-- First destructive read of the scenario: terminator newline, destination
capacity 16. -/
def scenario_read1 (s : RingBufComm) (dst : Nat → Byte) (rl : Nat) (ov : Bool) : ReadResult :=
  ring_buf_comm_read (some (scenarioComm s)) (some dst) 16 (some newline) (some rl) (some ov)
    false

/-- Second destructive read of the scenario, with the same arguments; the
pointees hold what the first call left. -/
def scenario_read2 (s : RingBufComm) (dst : Nat → Byte) (rl : Nat) (ov : Bool) : ReadResult :=
  ring_buf_comm_read (scenario_read1 s dst rl ov).comm (scenario_read1 s dst rl ov).rcvr 16
    (some newline) (scenario_read1 s dst rl ov).read_len (scenario_read1 s dst rl ov).overflow
    false

/-! ## Arithmetic of the indices -/

theorem SIZE_MOD_eq : SIZE_MOD = 18446744073709551616 := by
  norm_num [SIZE_MOD]

theorem RING_BUF_SIZE_pos : 0 < RING_BUF_SIZE := by
  decide

theorem next_index (t : Nat) :
    ((t + 1) % SIZE_MOD) % RING_BUF_SIZE = (t + 1) % RING_BUF_SIZE := by
  rw [SIZE_MOD_eq]
  simp only [RING_BUF_SIZE]
  omega

theorem available_of_inRange (rb : RingBuffer) (h : InRange rb) :
    ring_buf_available rb = (rb.head + RING_BUF_SIZE - rb.tail) % RING_BUF_SIZE := by
  obtain ⟨hh, ht⟩ := h
  unfold ring_buf_available
  rw [SIZE_MOD_eq]
  simp only [RING_BUF_SIZE] at *
  split <;> omega

theorem available_lt (rb : RingBuffer) (h : InRange rb) :
    ring_buf_available rb < RING_BUF_SIZE := by
  rw [available_of_inRange rb h]
  exact Nat.mod_lt _ RING_BUF_SIZE_pos

theorem head_eq_tail_add_available (rb : RingBuffer) (h : InRange rb) :
    rb.head = (rb.tail + ring_buf_available rb) % RING_BUF_SIZE := by
  rw [available_of_inRange rb h]
  obtain ⟨hh, ht⟩ := h
  simp only [RING_BUF_SIZE] at *
  omega

theorem available_eq_of_head (rb : RingBuffer) (a : Nat) (ht : rb.tail < RING_BUF_SIZE)
    (ha : a < RING_BUF_SIZE) (hh : rb.head = (rb.tail + a) % RING_BUF_SIZE) :
    ring_buf_available rb = a := by
  have hr : InRange rb := ⟨by rw [hh]; exact Nat.mod_lt _ RING_BUF_SIZE_pos, ht⟩
  rw [available_of_inRange rb hr, hh]
  simp only [RING_BUF_SIZE] at *
  omega

/-! ## The terminator comparison -/

theorem match_loop_iff (rcvr : Nat → Byte) (term : List Byte) (base : Nat) :
    ∀ n j, match_loop rcvr term base n j = true ↔
      ∀ q, q < n → rcvr (base + j + q) = term.getD (j + q) 0 := by
  intro n
  induction n with
  | zero => intro j; simp [match_loop]
  | succ n ih =>
    intro j
    simp only [match_loop]
    by_cases h : rcvr (base + j) = term.getD j 0
    · simp only [ne_eq, h, not_true_eq_false, if_false, ih]
      constructor
      · intro hq q hlt
        cases q with
        | zero => simpa using h
        | succ q =>
          have := hq q (by omega)
          rw [show base + j + (q + 1) = base + (j + 1) + q by omega,
            show j + (q + 1) = j + 1 + q by omega]
          exact this
      · intro hq q hlt
        have := hq (q + 1) (by omega)
        rw [show base + j + (q + 1) = base + (j + 1) + q by omega,
            show j + (q + 1) = j + 1 + q by omega] at this
        exact this
    · simp only [ne_eq, h, not_false_eq_true, if_true]
      constructor
      · intro hf; exact absurd hf (by simp)
      · intro hq
        exact absurd (by simpa using hq 0 (by omega)) h

/-! ## The copy loop of `ring_buf_comm_read` -/

theorem match_loop_matchAt (rb : RingBuffer) (rcvr : Nat → Byte) (term : List Byte)
    (L k : Nat) (hk : L ≤ k) (hcopy : ∀ j, j < k → rcvr j = logical rb j) :
    match_loop rcvr term (k - L) L 0 = true ↔ MatchAt (logical rb) term L k := by
  rw [match_loop_iff]
  simp only [MatchAt, Nat.add_zero, Nat.zero_add]
  constructor
  · intro h
    refine ⟨hk, fun j hj => ?_⟩
    rw [← hcopy (k - L + j) (by omega)]
    exact h j hj
  · intro h q hq
    rw [hcopy (k - L + q) (by omega)]
    exact h.2 q hq

/-- Invariant of the `while` loop of `ring_buf_comm_read`, started with `i` bytes
already copied. -/
theorem read_loop_spec (rb : RingBuffer) (term : List Byte) (L cap : Nat) :
    ∀ (a : Nat) (rcvr : Nat → Byte) (i tt : Nat),
      tt = (rb.tail + i) % RING_BUF_SIZE → i ≤ cap →
      (∀ j, j < i → rcvr j = logical rb j) →
      (read_loop rb term L cap a rcvr i tt).temp_tail
          = (rb.tail + (read_loop rb term L cap a rcvr i tt).i) % RING_BUF_SIZE ∧
      (∀ j, j < (read_loop rb term L cap a rcvr i tt).i →
          (read_loop rb term L cap a rcvr i tt).rcvr j = logical rb j) ∧
      (∀ j, (read_loop rb term L cap a rcvr i tt).i ≤ j →
          (read_loop rb term L cap a rcvr i tt).rcvr j = rcvr j) ∧
      i ≤ (read_loop rb term L cap a rcvr i tt).i ∧
      (read_loop rb term L cap a rcvr i tt).i ≤ i + a ∧
      (read_loop rb term L cap a rcvr i tt).i ≤ cap ∧
      (∀ k, i < k → k < (read_loop rb term L cap a rcvr i tt).i →
          ¬ MatchAt (logical rb) term L k) ∧
      ((read_loop rb term L cap a rcvr i tt).found_terminator = true →
          i < (read_loop rb term L cap a rcvr i tt).i ∧
          MatchAt (logical rb) term L (read_loop rb term L cap a rcvr i tt).i) ∧
      ((read_loop rb term L cap a rcvr i tt).found_terminator = false →
          (read_loop rb term L cap a rcvr i tt).i = min (i + a) cap ∧
          ¬ MatchAt (logical rb) term L (read_loop rb term L cap a rcvr i tt).i ∨
          (read_loop rb term L cap a rcvr i tt).i = i ∧
          (read_loop rb term L cap a rcvr i tt).i = min (i + a) cap) := by
  intro a
  induction a with
  | zero =>
    intro rcvr i tt htt hi hcopy
    simp only [read_loop]
    refine ⟨htt, hcopy, fun _ _ => trivial, le_refl _, le_refl _, hi, ?_, ?_, ?_⟩
    · intro k h1 h2; omega
    · intro h; exact absurd h (by simp)
    · intro _; right; exact ⟨trivial, by omega⟩
  | succ a ih =>
    intro rcvr i tt htt hi hcopy
    simp only [read_loop]
    by_cases hlt : i < cap
    · simp only [hlt, if_true]
      have hcopy1 : ∀ j, j < i + 1 →
          Function.update rcvr i (rb.buffer tt) j = logical rb j := by
        intro j hj
        by_cases hji : j = i
        · subst hji
          simp only [Function.update_same, logical, htt]
        · rw [Function.update_noteq hji]
          exact hcopy j (by omega)
      have htt1 : ((tt + 1) % SIZE_MOD) % RING_BUF_SIZE
          = (rb.tail + (i + 1)) % RING_BUF_SIZE := by
        rw [next_index, htt, ← Nat.add_assoc, Nat.add_mod (rb.tail + i) 1]
        simp
      by_cases hm : i + 1 ≥ L ∧
          match_loop (Function.update rcvr i (rb.buffer tt)) term (i + 1 - L) L 0 = true
      · simp only [hm, and_self, if_true]
        have hmat : MatchAt (logical rb) term L (i + 1) :=
          (match_loop_matchAt rb _ term L (i + 1) hm.1 hcopy1).1 hm.2
        refine ⟨htt1, hcopy1, ?_, by omega, by omega, by omega, ?_, ?_, ?_⟩
        · intro j hj
          exact Function.update_noteq (by omega) _ _
        · intro k h1 h2; omega
        · intro _; exact ⟨by omega, hmat⟩
        · intro h; exact absurd h (by simp)
      · simp only [hm, if_false]
        have hnm : ¬ MatchAt (logical rb) term L (i + 1) := by
          intro hmat
          exact hm ⟨hmat.1, (match_loop_matchAt rb _ term L (i + 1) hmat.1 hcopy1).2 hmat⟩
        obtain ⟨h1, h2, h3, h4, h5, h6, h7, h8, h9⟩ :=
          ih (Function.update rcvr i (rb.buffer tt)) (i + 1)
            (((tt + 1) % SIZE_MOD) % RING_BUF_SIZE) htt1 (by omega) hcopy1
        refine ⟨h1, h2, ?_, by omega, by omega, h6, ?_, ?_, ?_⟩
        · intro j hj
          rw [h3 j hj]
          exact Function.update_noteq (by omega) _ _
        · intro k hk1 hk2
          by_cases hk : k = i + 1
          · subst hk; exact hnm
          · exact h7 k (by omega) hk2
        · intro hf
          exact ⟨by omega, (h8 hf).2⟩
        · intro hf
          left
          rcases h9 hf with h | h
          · exact ⟨by rw [h.1]; omega, h.2⟩
          · refine ⟨by rw [h.2]; omega, ?_⟩
            rw [h.1]; exact hnm
    · simp only [hlt, if_false]
      refine ⟨htt, hcopy, fun _ _ => trivial, le_refl _, by omega, hi, ?_, ?_, ?_⟩
      · intro k h1 h2; omega
      · intro h; exact absurd h (by simp)
      · intro _; right; exact ⟨trivial, by omega⟩

/-! ## Logical contents and the terminator -/

theorem contents_length (rb : RingBuffer) :
    (contents rb).length = ring_buf_available rb := by
  simp [contents]

theorem cstr_getD (tm : List Byte) :
    ∀ j, j < strlen tm → tm.getD j 0 = (cstr tm).getD j 0 := by
  induction tm with
  | nil => intro j hj; simp [strlen, cstr] at hj
  | cons b tl ih =>
    intro j hj
    by_cases hb : b = 0
    · simp [strlen, cstr, hb] at hj
    · have hc : cstr (b :: tl) = b :: cstr tl := by
        simp [cstr, List.takeWhile_cons, hb]
      rw [hc]
      cases j with
      | zero => simp
      | succ j =>
        have hj1 : j < strlen tl := by
          simp only [strlen, hc, List.length_cons] at hj
          simp only [strlen]
          omega
        simpa using ih j hj1

theorem termAt_iff_matchAt (rb : RingBuffer) (tm : List Byte) (m k : Nat)
    (hm : m ≤ ring_buf_available rb) :
    TermAt (contents rb) (cstr tm) m k ↔
      k ≤ m ∧ MatchAt (logical rb) tm (strlen tm) k := by
  unfold TermAt MatchAt
  have hlen : (cstr tm).length = strlen tm := rfl
  rw [hlen]
  constructor
  · rintro ⟨h1, h2, h3⟩
    refine ⟨h2, h1, fun j hj => ?_⟩
    rw [cstr_getD tm j hj, ← h3]
    have hj1 : k - strlen tm + j < ring_buf_available rb := by omega
    simp [contents, List.getD_eq_getElem?_getD, List.getElem?_drop, List.getElem?_take,
      logical, hj1]
    rw [if_pos (by omega)]
    rfl
  · rintro ⟨h1, h2, h3⟩
    refine ⟨h2, h1, ?_⟩
    apply List.ext_getElem
    · simp [contents_length]
      omega
    · intro j hj1 hj2
      have hj : j < strlen tm := hj2
      have := h3 j hj
      rw [cstr_getD tm j hj, List.getD_eq_getElem?_getD, List.getElem?_eq_getElem hj2] at this
      simp only [Option.getD_some] at this
      rw [← this]
      simp [contents, logical]

/-! ## `ring_buf_comm_read` with valid pointers -/

theorem read_valid (c : RingBufComm) (dst : Nat → Byte) (cap : Nat) (tm : List Byte)
    (rl : Nat) (ov peek : Bool) :
    ring_buf_comm_read (some c) (some dst) cap (some tm) (some rl) (some ov) peek =
      if ring_buf_available c.rx_buffer = 0 then
        ⟨false, some c, some dst, some 0, some c.rx_buffer.overflow⟩
      else
        ⟨(read_loop c.rx_buffer tm (strlen tm) cap (ring_buf_available c.rx_buffer) dst 0
            c.rx_buffer.tail).found_terminator,
          some { c with rx_buffer :=
            if peek then c.rx_buffer
            else if (read_loop c.rx_buffer tm (strlen tm) cap
                (ring_buf_available c.rx_buffer) dst 0 c.rx_buffer.tail).found_terminator
              then { c.rx_buffer with
                tail := (read_loop c.rx_buffer tm (strlen tm) cap
                  (ring_buf_available c.rx_buffer) dst 0 c.rx_buffer.tail).temp_tail,
                overflow := false }
            else { c.rx_buffer with
                tail := (read_loop c.rx_buffer tm (strlen tm) cap
                  (ring_buf_available c.rx_buffer) dst 0 c.rx_buffer.tail).temp_tail } },
          some (read_loop c.rx_buffer tm (strlen tm) cap (ring_buf_available c.rx_buffer) dst 0
            c.rx_buffer.tail).rcvr,
          some (read_loop c.rx_buffer tm (strlen tm) cap (ring_buf_available c.rx_buffer) dst 0
            c.rx_buffer.tail).i,
          some c.rx_buffer.overflow⟩ := by
  rfl

theorem strlen_pos (tm : List Byte) (hne : cstr tm ≠ []) : 0 < strlen tm :=
  List.length_pos.mpr hne

/-- What the loop of `ring_buf_comm_read` returns, in terms of the positions at
which the terminator ends in the logical contents: with `m` the smaller of the
destination capacity and the available count, either the terminator is found
at `n`, the first position in `[1, m]` where it ends, or it is not found, it
ends nowhere in `[1, m]` and `n = m`. -/
theorem read_loop_first (rb : RingBuffer) (tm : List Byte) (cap : Nat) (dst : Nat → Byte)
    (ht : rb.tail < RING_BUF_SIZE) (hL : 0 < strlen tm) :
    (read_loop rb tm (strlen tm) cap (ring_buf_available rb) dst 0 rb.tail).i
        ≤ min cap (ring_buf_available rb) ∧
    (∀ k, k < (read_loop rb tm (strlen tm) cap (ring_buf_available rb) dst 0 rb.tail).i →
        ¬ MatchAt (logical rb) tm (strlen tm) k) ∧
    ((read_loop rb tm (strlen tm) cap (ring_buf_available rb) dst 0 rb.tail).found_terminator
        = true →
      MatchAt (logical rb) tm (strlen tm)
        (read_loop rb tm (strlen tm) cap (ring_buf_available rb) dst 0 rb.tail).i) ∧
    ((read_loop rb tm (strlen tm) cap (ring_buf_available rb) dst 0 rb.tail).found_terminator
        = false →
      (read_loop rb tm (strlen tm) cap (ring_buf_available rb) dst 0 rb.tail).i
          = min cap (ring_buf_available rb) ∧
      ¬ MatchAt (logical rb) tm (strlen tm)
        (read_loop rb tm (strlen tm) cap (ring_buf_available rb) dst 0 rb.tail).i) := by
  obtain ⟨-, -, -, -, h5, h6, h7, h8, h9⟩ :=
    read_loop_spec rb tm (strlen tm) cap (ring_buf_available rb) dst 0 rb.tail
      (by rw [Nat.add_zero, Nat.mod_eq_of_lt ht]) (Nat.zero_le _) (fun j hj => by omega)
  have h0 : ¬ MatchAt (logical rb) tm (strlen tm) 0 := fun h => by
    have := h.1
    omega
  refine ⟨by omega, ?_, fun hf => (h8 hf).2, ?_⟩
  · intro k hk
    by_cases hk0 : k = 0
    · subst hk0; exact h0
    · exact h7 k (by omega) hk
  · intro hf
    rcases h9 hf with h | h
    · exact ⟨by rw [h.1]; omega, h.2⟩
    · refine ⟨by rw [h.2]; omega, ?_⟩
      rw [h.1]; exact h0

/-! ## Framed read: terminator search -/

/-- C1. For a session whose receive indices are in range and a non-empty
terminator `t` of length `L`, with `D` the logical contents of the receive
buffer and `m = min cap |D|`: if `k` is the smallest position with
`L ≤ k ≤ m` and `D[k-L .. k) = t`, `ring_buf_comm_read` returns true with
`*read_len = k`; if no such position exists it returns false with
`*read_len = m`; in particular it returns false with `*read_len = m` when
`cap < L`. -/
theorem read_first_terminator (c : RingBufComm) (dst : Nat → Byte) (cap : Nat)
    (tm : List Byte) (rl : Nat) (ov peek : Bool)
    (hr : InRange c.rx_buffer) (hne : cstr tm ≠ []) :
    (∀ k, TermAt (contents c.rx_buffer) (cstr tm) (min cap (contents c.rx_buffer).length) k →
      (∀ k2, k2 < k →
        ¬ TermAt (contents c.rx_buffer) (cstr tm) (min cap (contents c.rx_buffer).length) k2) →
      (ring_buf_comm_read (some c) (some dst) cap (some tm) (some rl) (some ov) peek).ret = true ∧
      (ring_buf_comm_read (some c) (some dst) cap (some tm) (some rl) (some ov) peek).read_len
        = some k) ∧
    ((¬ ∃ k, TermAt (contents c.rx_buffer) (cstr tm) (min cap (contents c.rx_buffer).length) k) →
      (ring_buf_comm_read (some c) (some dst) cap (some tm) (some rl) (some ov) peek).ret = false ∧
      (ring_buf_comm_read (some c) (some dst) cap (some tm) (some rl) (some ov) peek).read_len
        = some (min cap (contents c.rx_buffer).length)) ∧
    (cap < (cstr tm).length →
      (ring_buf_comm_read (some c) (some dst) cap (some tm) (some rl) (some ov) peek).ret = false ∧
      (ring_buf_comm_read (some c) (some dst) cap (some tm) (some rl) (some ov) peek).read_len
        = some (min cap (contents c.rx_buffer).length)) := by
  have hL := strlen_pos tm hne
  have hiff := fun k => termAt_iff_matchAt c.rx_buffer tm
    (min cap (ring_buf_available c.rx_buffer)) k (Nat.min_le_right _ _)
  have key : (∀ k, TermAt (contents c.rx_buffer) (cstr tm)
        (min cap (contents c.rx_buffer).length) k →
      (∀ k2, k2 < k →
        ¬ TermAt (contents c.rx_buffer) (cstr tm) (min cap (contents c.rx_buffer).length) k2) →
      (ring_buf_comm_read (some c) (some dst) cap (some tm) (some rl) (some ov) peek).ret = true ∧
      (ring_buf_comm_read (some c) (some dst) cap (some tm) (some rl) (some ov) peek).read_len
        = some k) ∧
    ((¬ ∃ k, TermAt (contents c.rx_buffer) (cstr tm) (min cap (contents c.rx_buffer).length) k) →
      (ring_buf_comm_read (some c) (some dst) cap (some tm) (some rl) (some ov) peek).ret = false ∧
      (ring_buf_comm_read (some c) (some dst) cap (some tm) (some rl) (some ov) peek).read_len
        = some (min cap (contents c.rx_buffer).length)) := by
    rw [read_valid, contents_length]
    by_cases h0 : ring_buf_available c.rx_buffer = 0
    · simp only [h0, if_true, Nat.min_zero]
      refine ⟨fun k hk _ => ?_, fun _ => by simp⟩
      have h1 := hk.1
      have h2 := hk.2.1
      have : (cstr tm).length = strlen tm := rfl
      omega
    · simp only [h0, if_false]
      obtain ⟨h1, h2, h3, h4⟩ := read_loop_first c.rx_buffer tm cap dst hr.2 hL
      cases hf : (read_loop c.rx_buffer tm (strlen tm) cap (ring_buf_available c.rx_buffer)
          dst 0 c.rx_buffer.tail).found_terminator with
      | true =>
        have hmat := h3 hf
        have hterm := (hiff _).2 ⟨h1, hmat⟩
        refine ⟨fun k hk hmin => ⟨rfl, ?_⟩, fun hno => absurd ⟨_, hterm⟩ hno⟩
        have hk1 := ((hiff k).1 hk).2
        rcases Nat.lt_trichotomy k (read_loop c.rx_buffer tm (strlen tm) cap
            (ring_buf_available c.rx_buffer) dst 0 c.rx_buffer.tail).i with hlt | heq | hgt
        · exact absurd hk1 (h2 k hlt)
        · rw [heq]
        · exact absurd hterm (hmin _ hgt)
      | false =>
        obtain ⟨h5, h6⟩ := h4 hf
        refine ⟨fun k hk _ => ?_, fun _ => ⟨rfl, by rw [h5]⟩⟩
        obtain ⟨hk1, hk2⟩ := (hiff k).1 hk
        rcases Nat.lt_or_ge k (read_loop c.rx_buffer tm (strlen tm) cap
            (ring_buf_available c.rx_buffer) dst 0 c.rx_buffer.tail).i with hlt | hge
        · exact absurd hk2 (h2 k hlt)
        · have : k = (read_loop c.rx_buffer tm (strlen tm) cap
              (ring_buf_available c.rx_buffer) dst 0 c.rx_buffer.tail).i := by omega
          rw [this] at hk2
          exact absurd hk2 h6
  refine ⟨key.1, key.2, fun hcap => key.2 ?_⟩
  rintro ⟨k, hk⟩
  have h1 := hk.1
  have h2 := hk.2.1
  omega

/-- Witness for C1: on `wrapComm` (contents h, i, newline, y, o across the wrap
point) a read with terminator newline and capacity 16 returns true with
`*read_len = 3`. -/
theorem read_first_terminator_witness :
    InRange wrapComm.rx_buffer ∧ cstr newline ≠ [] ∧
    (ring_buf_comm_read (some wrapComm) (some zeroStore) 16 (some newline) (some 0)
      (some false) false).ret = true ∧
    (ring_buf_comm_read (some wrapComm) (some zeroStore) 16 (some newline) (some 0)
      (some false) false).read_len = some 3 :=
  ⟨by unfold InRange; decide, by decide,
    (read_first_terminator wrapComm zeroStore 16 newline 0 false false
      (by unfold InRange; decide) (by decide)).1 3
      (by unfold TermAt; decide) (by unfold TermAt; decide)⟩

/-! ## Framed read: bytes delivered and bytes consumed -/

theorem take_contents (rb : RingBuffer) (n : Nat) (hn : n ≤ ring_buf_available rb) :
    (contents rb).take n = bytes (logical rb) n := by
  apply List.ext_getElem
  · simp [contents, bytes]
    exact hn
  · intro j h1 h2
    simp [contents, bytes, logical]

/-- Moving the read index of an in-range ring buffer forward by `n` of its
available bytes removes the first `n` bytes of its logical contents. -/
theorem advance_tail (rb : RingBuffer) (n : Nat) (ov : Bool) (hr : InRange rb)
    (hn : n ≤ ring_buf_available rb) :
    ring_buf_available { rb with tail := (rb.tail + n) % RING_BUF_SIZE, overflow := ov } + n
      = ring_buf_available rb ∧
    contents { rb with tail := (rb.tail + n) % RING_BUF_SIZE, overflow := ov }
      = (contents rb).drop n := by
  have hlt := available_lt rb hr
  have hhd := head_eq_tail_add_available rb hr
  have ht := hr.2
  have hav : ring_buf_available
      { rb with tail := (rb.tail + n) % RING_BUF_SIZE, overflow := ov }
      = ring_buf_available rb - n := by
    apply available_eq_of_head
    · exact Nat.mod_lt _ RING_BUF_SIZE_pos
    · omega
    · show rb.head = ((rb.tail + n) % RING_BUF_SIZE + (ring_buf_available rb - n))
        % RING_BUF_SIZE
      rw [hhd]
      simp only [RING_BUF_SIZE] at *
      omega
  refine ⟨by rw [hav]; omega, ?_⟩
  apply List.ext_getElem
  · simp [contents_length, hav]
  · intro j h1 h2
    simp only [contents, List.getElem_map, List.getElem_range, List.getElem_drop]
    congr 1
    simp only [RING_BUF_SIZE]
    omega

/-- The counters and the flag that the copy loop returns do not depend on what
the destination held before the call. -/
theorem read_loop_dst_indep (rb : RingBuffer) (term : List Byte) (L cap : Nat) :
    ∀ (a : Nat) (r1 r2 : Nat → Byte) (i tt : Nat), (∀ j, j < i → r1 j = r2 j) →
      (read_loop rb term L cap a r1 i tt).i = (read_loop rb term L cap a r2 i tt).i ∧
      (read_loop rb term L cap a r1 i tt).temp_tail
        = (read_loop rb term L cap a r2 i tt).temp_tail ∧
      (read_loop rb term L cap a r1 i tt).found_terminator
        = (read_loop rb term L cap a r2 i tt).found_terminator := by
  intro a
  induction a with
  | zero => intro r1 r2 i tt _; simp [read_loop]
  | succ a ih =>
    intro r1 r2 i tt hagree
    simp only [read_loop]
    by_cases hlt : i < cap
    · simp only [hlt, if_true]
      have hagree1 : ∀ j, j < i + 1 →
          Function.update r1 i (rb.buffer tt) j = Function.update r2 i (rb.buffer tt) j := by
        intro j hj
        by_cases hji : j = i
        · subst hji; simp
        · rw [Function.update_noteq hji, Function.update_noteq hji]
          exact hagree j (by omega)
      have hm : (i + 1 ≥ L ∧
            match_loop (Function.update r1 i (rb.buffer tt)) term (i + 1 - L) L 0 = true) ↔
          (i + 1 ≥ L ∧
            match_loop (Function.update r2 i (rb.buffer tt)) term (i + 1 - L) L 0 = true) := by
        constructor
        · rintro ⟨h1, h2⟩
          refine ⟨h1, ?_⟩
          rw [match_loop_iff] at h2 ⊢
          intro q hq
          rw [← hagree1 _ (by omega)]
          exact h2 q hq
        · rintro ⟨h1, h2⟩
          refine ⟨h1, ?_⟩
          rw [match_loop_iff] at h2 ⊢
          intro q hq
          rw [hagree1 _ (by omega)]
          exact h2 q hq
      by_cases hc : i + 1 ≥ L ∧
          match_loop (Function.update r1 i (rb.buffer tt)) term (i + 1 - L) L 0 = true
      · rw [if_pos hc, if_pos (hm.1 hc)]
        exact ⟨rfl, rfl, rfl⟩
      · rw [if_neg hc, if_neg (fun h => hc (hm.2 h))]
        exact ih _ _ _ _ hagree1
    · simp only [hlt, if_false]
      exact ⟨trivial, trivial, trivial⟩

/-- The value returned, `*read_len`, `*overflow` and the session after a valid
`ring_buf_comm_read` call do not depend on the previous pointees of `rcvr`,
`read_len` and `overflow`. -/
theorem read_outputs_indep (c : RingBufComm) (d1 d2 : Nat → Byte) (cap : Nat)
    (tm : List Byte) (rl1 rl2 : Nat) (ov1 ov2 peek : Bool) :
    (ring_buf_comm_read (some c) (some d1) cap (some tm) (some rl1) (some ov1) peek).ret
      = (ring_buf_comm_read (some c) (some d2) cap (some tm) (some rl2) (some ov2) peek).ret ∧
    (ring_buf_comm_read (some c) (some d1) cap (some tm) (some rl1) (some ov1) peek).read_len
      = (ring_buf_comm_read (some c) (some d2) cap (some tm) (some rl2) (some ov2) peek).read_len ∧
    (ring_buf_comm_read (some c) (some d1) cap (some tm) (some rl1) (some ov1) peek).overflow
      = (ring_buf_comm_read (some c) (some d2) cap (some tm) (some rl2) (some ov2) peek).overflow ∧
    (ring_buf_comm_read (some c) (some d1) cap (some tm) (some rl1) (some ov1) peek).comm
      = (ring_buf_comm_read (some c) (some d2) cap (some tm) (some rl2) (some ov2) peek).comm := by
  rw [read_valid, read_valid]
  obtain ⟨h1, h2, h3⟩ := read_loop_dst_indep c.rx_buffer tm (strlen tm) cap
    (ring_buf_available c.rx_buffer) d1 d2 0 c.rx_buffer.tail (fun j hj => by omega)
  by_cases h0 : ring_buf_available c.rx_buffer = 0
  · simp only [h0, if_true, and_self]
  · simp only [h0, if_false, h1, h2, h3, and_self]

/-- A valid `ring_buf_comm_read` call leaves every pointee defined. -/
theorem read_valid_some (c : RingBufComm) (dst : Nat → Byte) (cap : Nat) (tm : List Byte)
    (rl : Nat) (ov peek : Bool) :
    ∃ c2 d2 rl2 ov2 b,
      ring_buf_comm_read (some c) (some dst) cap (some tm) (some rl) (some ov) peek
        = ⟨b, some c2, some d2, some rl2, some ov2⟩ := by
  rw [read_valid]
  split
  · exact ⟨_, _, _, _, _, rfl⟩
  · exact ⟨_, _, _, _, _, rfl⟩

theorem peek_comm (comm : Option RingBufComm) (rcvr : Option (Nat → Byte)) (cap : Nat)
    (terminator : Option (List Byte)) (read_len : Option Nat) (overflow : Option Bool) :
    (ring_buf_comm_read comm rcvr cap terminator read_len overflow true).comm = comm := by
  cases comm <;> cases rcvr <;> cases read_len <;> cases terminator <;> cases overflow <;>
    try rfl
  rw [read_valid]
  split <;> rfl

/-- C2. For a session whose receive indices are in range, a
`ring_buf_comm_read` call (peek or destructive) that sets `*read_len = n`
leaves in `rcvr[0 .. n)` the bytes stored at physical positions
`(tail + j) mod RING_BUF_SIZE`, `j = 0 .. n-1`, which are the first `n` bytes
of the logical contents at entry, and leaves `rcvr[j]` as it was for every
`j ≥ n`. -/
theorem read_copies_fifo_order (c : RingBufComm) (dst : Nat → Byte) (cap : Nat)
    (tm : List Byte) (rl : Nat) (ov peek : Bool) (hr : InRange c.rx_buffer) :
    ∃ n out,
      (ring_buf_comm_read (some c) (some dst) cap (some tm) (some rl) (some ov) peek).read_len
        = some n ∧
      (ring_buf_comm_read (some c) (some dst) cap (some tm) (some rl) (some ov) peek).rcvr
        = some out ∧
      (∀ j, j < n → out j = c.rx_buffer.buffer ((c.rx_buffer.tail + j) % RING_BUF_SIZE)) ∧
      bytes out n = (contents c.rx_buffer).take n ∧
      (∀ j, n ≤ j → out j = dst j) := by
  rw [read_valid]
  by_cases h0 : ring_buf_available c.rx_buffer = 0
  · simp only [h0, if_true]
    refine ⟨0, dst, rfl, rfl, fun j hj => by omega, by simp [bytes], fun _ _ => rfl⟩
  · simp only [h0, if_false]
    obtain ⟨-, h2, h3, -, h5, -, -, -, -⟩ :=
      read_loop_spec c.rx_buffer tm (strlen tm) cap (ring_buf_available c.rx_buffer) dst 0
        c.rx_buffer.tail (by rw [Nat.add_zero, Nat.mod_eq_of_lt hr.2]) (Nat.zero_le _)
        (fun j hj => by omega)
    refine ⟨_, _, rfl, rfl, h2, ?_, h3⟩
    rw [take_contents c.rx_buffer _ (by omega)]
    unfold bytes
    apply List.map_congr_left
    intro j hj
    exact h2 j (List.mem_range.1 hj)

/-- Witness for C2 on `wrapComm`, whose contents straddle the wrap point. -/
theorem read_copies_fifo_order_witness :
    InRange wrapComm.rx_buffer ∧
    ∃ n out,
      (ring_buf_comm_read (some wrapComm) (some zeroStore) 16 (some newline) (some 0)
        (some false) false).read_len = some n ∧
      (ring_buf_comm_read (some wrapComm) (some zeroStore) 16 (some newline) (some 0)
        (some false) false).rcvr = some out ∧
      (∀ j, j < n → out j =
        wrapComm.rx_buffer.buffer ((wrapComm.rx_buffer.tail + j) % RING_BUF_SIZE)) ∧
      bytes out n = (contents wrapComm.rx_buffer).take n ∧
      (∀ j, n ≤ j → out j = zeroStore j) :=
  ⟨by unfold InRange; decide,
    read_copies_fifo_order wrapComm zeroStore 16 newline 0 false false
      (by unfold InRange; decide)⟩

/-- C3. For a session whose receive indices are in range, a destructive
`ring_buf_comm_read` call that sets `*read_len = n` sets the read index to
`(old tail + n) mod RING_BUF_SIZE`, lowers `ring_buf_available` of the receive
buffer by exactly `n`, leaves as logical contents the old contents without
their first `n` bytes, and leaves the overflow flag false when the call
returns true and as it was at entry when the call returns false.  (Holds for
an empty receive buffer as well, with `n = 0`.) -/
theorem destructive_read_consumes (c : RingBufComm) (dst : Nat → Byte) (cap : Nat)
    (tm : List Byte) (rl : Nat) (ov : Bool) (hr : InRange c.rx_buffer) :
    ∃ n c2,
      (ring_buf_comm_read (some c) (some dst) cap (some tm) (some rl) (some ov) false).read_len
        = some n ∧
      (ring_buf_comm_read (some c) (some dst) cap (some tm) (some rl) (some ov) false).comm
        = some c2 ∧
      c2.rx_buffer.tail = (c.rx_buffer.tail + n) % RING_BUF_SIZE ∧
      ring_buf_available c2.rx_buffer + n = ring_buf_available c.rx_buffer ∧
      contents c2.rx_buffer = (contents c.rx_buffer).drop n ∧
      c2.rx_buffer.overflow =
        (if (ring_buf_comm_read (some c) (some dst) cap (some tm) (some rl) (some ov) false).ret
          then false else c.rx_buffer.overflow) := by
  rw [read_valid]
  by_cases h0 : ring_buf_available c.rx_buffer = 0
  · simp only [h0, if_true]
    refine ⟨0, c, rfl, rfl, ?_, by omega, by simp, by simp⟩
    rw [Nat.add_zero, Nat.mod_eq_of_lt hr.2]
  · simp only [h0, if_false]
    obtain ⟨h1, -, -, -, h5, -, -, -, -⟩ :=
      read_loop_spec c.rx_buffer tm (strlen tm) cap (ring_buf_available c.rx_buffer) dst 0
        c.rx_buffer.tail (by rw [Nat.add_zero, Nat.mod_eq_of_lt hr.2]) (Nat.zero_le _)
        (fun j hj => by omega)
    rw [Nat.zero_add] at h5
    cases hf : (read_loop c.rx_buffer tm (strlen tm) cap (ring_buf_available c.rx_buffer)
        dst 0 c.rx_buffer.tail).found_terminator with
    | true =>
      obtain ⟨ha, hc⟩ := advance_tail c.rx_buffer _ false hr h5
      refine ⟨_, _, rfl, rfl, ?_, ?_, ?_, ?_⟩
      · simpa using h1
      · simpa [h1] using ha
      · simpa [h1] using hc
      · simp
    | false =>
      obtain ⟨ha, hc⟩ := advance_tail c.rx_buffer _ c.rx_buffer.overflow hr h5
      refine ⟨_, _, rfl, rfl, ?_, ?_, ?_, ?_⟩
      · simpa using h1
      · simpa [h1] using ha
      · simpa [h1] using hc
      · simp

/-- Witness for C3 on `wrapComm`. -/
theorem destructive_read_consumes_witness :
    InRange wrapComm.rx_buffer ∧
    ∃ n c2,
      (ring_buf_comm_read (some wrapComm) (some zeroStore) 16 (some newline) (some 0)
        (some false) false).read_len = some n ∧
      (ring_buf_comm_read (some wrapComm) (some zeroStore) 16 (some newline) (some 0)
        (some false) false).comm = some c2 ∧
      c2.rx_buffer.tail = (wrapComm.rx_buffer.tail + n) % RING_BUF_SIZE ∧
      ring_buf_available c2.rx_buffer + n = ring_buf_available wrapComm.rx_buffer ∧
      contents c2.rx_buffer = (contents wrapComm.rx_buffer).drop n ∧
      c2.rx_buffer.overflow =
        (if (ring_buf_comm_read (some wrapComm) (some zeroStore) 16 (some newline) (some 0)
            (some false) false).ret
          then false else wrapComm.rx_buffer.overflow) :=
  ⟨by unfold InRange; decide,
    destructive_read_consumes wrapComm zeroStore 16 newline 0 false
      (by unfold InRange; decide)⟩

/-- C4. A `ring_buf_comm_read` call with `peek = true` returns the session
exactly as it received it, whatever the arguments; and of any number of
consecutive peek calls with the same arguments, each returns the same value,
the same `*read_len` and the same `*overflow` as the first and leaves the
session as it was. -/
theorem peek_leaves_session (c : RingBufComm) (dst : Nat → Byte) (cap : Nat)
    (tm : List Byte) (rl : Nat) (ov : Bool) :
    (∀ (comm : Option RingBufComm) (rcvr : Option (Nat → Byte)) (terminator : Option (List Byte))
        (read_len : Option Nat) (overflow : Option Bool),
      (ring_buf_comm_read comm rcvr cap terminator read_len overflow true).comm = comm) ∧
    ∀ n, (peek_repeat c dst cap tm rl ov n).ret = (peek_repeat c dst cap tm rl ov 0).ret ∧
      (peek_repeat c dst cap tm rl ov n).read_len = (peek_repeat c dst cap tm rl ov 0).read_len ∧
      (peek_repeat c dst cap tm rl ov n).overflow = (peek_repeat c dst cap tm rl ov 0).overflow ∧
      (peek_repeat c dst cap tm rl ov n).comm = some c := by
  refine ⟨fun comm rcvr terminator read_len overflow =>
    peek_comm comm rcvr cap terminator read_len overflow, ?_⟩
  have hshape : ∀ n, ∃ d2 rl2 ov2, peek_repeat c dst cap tm rl ov n
      = ring_buf_comm_read (some c) (some d2) cap (some tm) (some rl2) (some ov2) true := by
    intro n
    induction n with
    | zero => exact ⟨dst, rl, ov, rfl⟩
    | succ n ih =>
      obtain ⟨d2, rl2, ov2, h⟩ := ih
      obtain ⟨c3, d3, rl3, ov3, b, h3⟩ := read_valid_some c d2 cap tm rl2 ov2 true
      have hc := peek_comm (some c) (some d2) cap (some tm) (some rl2) (some ov2)
      rw [h3] at hc
      simp only [Option.some.injEq] at hc
      refine ⟨d3, rl3, ov3, ?_⟩
      simp only [peek_repeat]
      rw [h, h3, hc]
  intro n
  obtain ⟨d2, rl2, ov2, h⟩ := hshape n
  obtain ⟨h1, h2, h3, -⟩ := read_outputs_indep c d2 dst cap tm rl2 rl ov2 ov true
  rw [h]
  exact ⟨h1, h2, h3, peek_comm _ _ _ _ _ _⟩

/-! ## The store loop of `ring_buf_comm_write` -/

theorem full_iff (rb : RingBuffer) (hr : InRange rb) :
    ((rb.head + 1) % SIZE_MOD) % RING_BUF_SIZE = rb.tail ↔
      ring_buf_available rb = RING_BUF_SIZE - 1 := by
  rw [next_index, available_of_inRange rb hr]
  obtain ⟨hh, ht⟩ := hr
  simp only [RING_BUF_SIZE] at *
  omega

/-- Storing one byte at the write index of an in-range ring buffer that is not
full appends the byte to the logical contents. -/
theorem push_spec (rb : RingBuffer) (v : Byte) (hr : InRange rb)
    (hfree : ring_buf_available rb ≠ RING_BUF_SIZE - 1) :
    InRange { rb with buffer := Function.update rb.buffer rb.head v,
                      head := ((rb.head + 1) % SIZE_MOD) % RING_BUF_SIZE } ∧
    ring_buf_available { rb with buffer := Function.update rb.buffer rb.head v,
                                 head := ((rb.head + 1) % SIZE_MOD) % RING_BUF_SIZE }
      = ring_buf_available rb + 1 ∧
    contents { rb with buffer := Function.update rb.buffer rb.head v,
                       head := ((rb.head + 1) % SIZE_MOD) % RING_BUF_SIZE }
      = contents rb ++ [v] := by
  have hlt := available_lt rb hr
  have hhd := head_eq_tail_add_available rb hr
  have hC := RING_BUF_SIZE_pos
  have hav : ring_buf_available
      { rb with buffer := Function.update rb.buffer rb.head v,
                head := ((rb.head + 1) % SIZE_MOD) % RING_BUF_SIZE }
      = ring_buf_available rb + 1 := by
    apply available_eq_of_head
    · exact hr.2
    · omega
    · show ((rb.head + 1) % SIZE_MOD) % RING_BUF_SIZE
        = (rb.tail + (ring_buf_available rb + 1)) % RING_BUF_SIZE
      rw [next_index]
      have ht := hr.2
      simp only [RING_BUF_SIZE] at *
      omega
  refine ⟨⟨Nat.mod_lt _ hC, hr.2⟩, hav, ?_⟩
  unfold contents
  rw [hav, List.range_succ, List.map_append]
  congr 1
  · apply List.map_congr_left
    intro j hj
    have hj1 := List.mem_range.1 hj
    show Function.update rb.buffer rb.head v ((rb.tail + j) % RING_BUF_SIZE) = _
    rw [Function.update_noteq]
    have ht := hr.2
    simp only [RING_BUF_SIZE] at *
    omega
  · show [Function.update rb.buffer rb.head v
        ((rb.tail + ring_buf_available rb) % RING_BUF_SIZE)] = [v]
    rw [← hhd, Function.update_same]

/-- Effect of the `for` loop of `ring_buf_comm_write` on an in-range ring
buffer: it stores `min n K` bytes, `K` being the number of free slots. -/
theorem write_loop_spec (data : Nat → Byte) :
    ∀ (n i : Nat) (rb : RingBuffer) (w : Nat), InRange rb →
      (write_loop data n i rb w).written_len
        = w + min n (RING_BUF_SIZE - 1 - ring_buf_available rb) ∧
      ((write_loop data n i rb w).ret = true ↔
        n ≤ RING_BUF_SIZE - 1 - ring_buf_available rb) ∧
      InRange (write_loop data n i rb w).rb ∧
      ring_buf_available (write_loop data n i rb w).rb
        = ring_buf_available rb + min n (RING_BUF_SIZE - 1 - ring_buf_available rb) ∧
      contents (write_loop data n i rb w).rb
        = contents rb ++ (List.range (min n (RING_BUF_SIZE - 1 - ring_buf_available rb))).map
            (fun q => data (i + q)) ∧
      (write_loop data n i rb w).rb.tail = rb.tail ∧
      (write_loop data n i rb w).rb.overflow = rb.overflow := by
  intro n
  induction n with
  | zero =>
    intro i rb w hr
    simp [write_loop, hr]
  | succ n ih =>
    intro i rb w hr
    have hlt := available_lt rb hr
    simp only [write_loop]
    by_cases hfull : ((rb.head + 1) % SIZE_MOD) % RING_BUF_SIZE = rb.tail
    · have ha := (full_iff rb hr).1 hfull
      simp only [hfull, if_true]
      refine ⟨by omega, by simp; omega, hr, by omega, ?_, trivial, trivial⟩
      rw [show min (n + 1) (RING_BUF_SIZE - 1 - ring_buf_available rb) = 0 by omega]
      simp
    · have ha : ring_buf_available rb ≠ RING_BUF_SIZE - 1 :=
        fun h => hfull ((full_iff rb hr).2 h)
      simp only [hfull, if_false]
      obtain ⟨p1, p2, p3⟩ := push_spec rb (data i) hr ha
      obtain ⟨h1, h2, h3, h4, h5, h6, h7⟩ := ih (i + 1) _ (w + 1) p1
      rw [p2] at h1 h2 h4 h5
      rw [p3] at h5
      have hmin : min (n + 1) (RING_BUF_SIZE - 1 - ring_buf_available rb)
          = min n (RING_BUF_SIZE - 1 - (ring_buf_available rb + 1)) + 1 := by omega
      refine ⟨by rw [h1]; omega, by rw [h2]; omega, h3, by rw [h4]; omega, ?_, h6, h7⟩
      rw [h5, hmin, List.range_succ_eq_map, List.map_cons, List.map_map, List.append_assoc]
      congr 1
      simp only [List.singleton_append, Nat.add_zero, List.cons.injEq, true_and]
      apply List.map_congr_left
      intro q _
      simp only [Function.comp, Nat.succ_eq_add_one]
      congr 1
      omega

theorem write_valid (c : RingBufComm) (data : Nat → Byte) (data_len wl : Nat) :
    ring_buf_comm_write (some c) (some data) data_len (some wl) =
      ⟨(write_loop data data_len 0 c.tx_buffer 0).ret,
        some { c with tx_buffer := (write_loop data data_len 0 c.tx_buffer 0).rb },
        some (write_loop data data_len 0 c.tx_buffer 0).written_len⟩ := by
  rfl

/-! ## Raw write -/

/-- C5. For a session whose transmit indices are in range, with
`K = RING_BUF_SIZE - 1 - available(tx)` free slots and `data_len = M`:
`ring_buf_comm_write` sets `*written_len = min M K`, returns true exactly when
`M ≤ K`, and leaves `available(tx)` larger by `*written_len`. -/
theorem write_count (c : RingBufComm) (data : Nat → Byte) (M wl : Nat)
    (hr : InRange c.tx_buffer) :
    (ring_buf_comm_write (some c) (some data) M (some wl)).written_len
      = some (min M (RING_BUF_SIZE - 1 - ring_buf_available c.tx_buffer)) ∧
    ((ring_buf_comm_write (some c) (some data) M (some wl)).ret = true ↔
      M ≤ RING_BUF_SIZE - 1 - ring_buf_available c.tx_buffer) ∧
    ∃ c2, (ring_buf_comm_write (some c) (some data) M (some wl)).comm = some c2 ∧
      ring_buf_available c2.tx_buffer
        = ring_buf_available c.tx_buffer
          + min M (RING_BUF_SIZE - 1 - ring_buf_available c.tx_buffer) := by
  rw [write_valid]
  obtain ⟨h1, h2, -, h4, -, -, -⟩ := write_loop_spec data M 0 c.tx_buffer 0 hr
  refine ⟨by simp only [h1, Nat.zero_add], h2, _, rfl, h4⟩

/-- Witness for C5: three bytes offered to the empty transmit buffer of
`wrapComm`. -/
theorem write_count_witness :
    InRange wrapComm.tx_buffer ∧
    (ring_buf_comm_write (some wrapComm) (some wrapStore) 3 (some 0)).written_len
      = some (min 3 (RING_BUF_SIZE - 1 - ring_buf_available wrapComm.tx_buffer)) ∧
    ((ring_buf_comm_write (some wrapComm) (some wrapStore) 3 (some 0)).ret = true ↔
      3 ≤ RING_BUF_SIZE - 1 - ring_buf_available wrapComm.tx_buffer) ∧
    ∃ c2, (ring_buf_comm_write (some wrapComm) (some wrapStore) 3 (some 0)).comm = some c2 ∧
      ring_buf_available c2.tx_buffer
        = ring_buf_available wrapComm.tx_buffer
          + min 3 (RING_BUF_SIZE - 1 - ring_buf_available wrapComm.tx_buffer) :=
  ⟨by unfold InRange; decide,
    write_count wrapComm wrapStore 3 0 (by unfold InRange; decide)⟩

/-- C6. For a session whose transmit indices are in range, a
`ring_buf_comm_write` call that sets `*written_len = w` leaves as logical
contents of the transmit buffer the contents before the call followed by
`data[0 .. w)` in order. -/
theorem write_appends (c : RingBufComm) (data : Nat → Byte) (M wl : Nat)
    (hr : InRange c.tx_buffer) :
    ∃ w c2,
      (ring_buf_comm_write (some c) (some data) M (some wl)).written_len = some w ∧
      (ring_buf_comm_write (some c) (some data) M (some wl)).comm = some c2 ∧
      contents c2.tx_buffer = contents c.tx_buffer ++ bytes data w := by
  rw [write_valid]
  obtain ⟨h1, -, -, -, h5, -, -⟩ := write_loop_spec data M 0 c.tx_buffer 0 hr
  refine ⟨_, _, rfl, rfl, ?_⟩
  show contents (write_loop data M 0 c.tx_buffer 0).rb = _
  rw [h5, h1]
  simp only [Nat.zero_add, bytes]

/-- Witness for C6. -/
theorem write_appends_witness :
    InRange wrapComm.tx_buffer ∧
    ∃ w c2,
      (ring_buf_comm_write (some wrapComm) (some wrapStore) 3 (some 0)).written_len = some w ∧
      (ring_buf_comm_write (some wrapComm) (some wrapStore) 3 (some 0)).comm = some c2 ∧
      contents c2.tx_buffer = contents wrapComm.tx_buffer ++ bytes wrapStore w :=
  ⟨by unfold InRange; decide,
    write_appends wrapComm wrapStore 3 0 (by unfold InRange; decide)⟩

/-! ## Capacity invariant -/

theorem write_seq_inRange (calls : List ((Nat → Byte) × Nat)) :
    ∀ c : RingBufComm, InRange c.tx_buffer →
      ∃ c2, write_seq (some c) calls = some c2 ∧ InRange c2.tx_buffer := by
  induction calls with
  | nil => intro c hr; exact ⟨c, rfl, hr⟩
  | cons call rest ih =>
    intro c hr
    obtain ⟨-, -, h3, -, -, -, -⟩ := write_loop_spec call.1 call.2 0 c.tx_buffer 0 hr
    simp only [write_seq, write_valid]
    exact ih _ h3

/-- After `k ≤ RING_BUF_SIZE - 1` one-byte writes into an empty transmit buffer
the buffer holds `k` bytes. -/
theorem single_writes_available (src : Nat → Byte) (c : RingBufComm)
    (hr : InRange c.tx_buffer) (he : c.tx_buffer.head = c.tx_buffer.tail) :
    ∀ k, k ≤ RING_BUF_SIZE - 1 →
      ∃ ck, single_writes src (some c) k = some ck ∧ InRange ck.tx_buffer ∧
        ring_buf_available ck.tx_buffer = k := by
  intro k
  induction k with
  | zero =>
    intro _
    refine ⟨c, rfl, hr, ?_⟩
    unfold ring_buf_available
    rw [he]
    simp
  | succ k ih =>
    intro hk
    obtain ⟨ck, h1, h2, h3⟩ := ih (by omega)
    obtain ⟨-, -, q3, q4, -, -, -⟩ := write_loop_spec (fun _ => src k) 1 0 ck.tx_buffer 0 h2
    simp only [single_writes, h1, write_valid]
    refine ⟨_, rfl, q3, ?_⟩
    show ring_buf_available (write_loop (fun _ => src k) 1 0 ck.tx_buffer 0).rb = k + 1
    rw [q4, h3]
    omega

/-- C7. Starting from any session whose transmit indices are in range (an
initialised session is one), after every finite sequence of
`ring_buf_comm_write` calls the transmit indices are in range and
`available(tx) ≤ RING_BUF_SIZE - 1`; and starting from an empty transmit
buffer, of `RING_BUF_SIZE` consecutive one-byte writes each of the first
`RING_BUF_SIZE - 1` returns true with `*written_len = 1` and the last returns
false with `*written_len = 0`. -/
theorem capacity_invariant (c : RingBufComm) (hr : InRange c.tx_buffer) :
    (∀ calls, ∃ c2, write_seq (some c) calls = some c2 ∧ InRange c2.tx_buffer ∧
      ring_buf_available c2.tx_buffer ≤ RING_BUF_SIZE - 1) ∧
    (∀ s, InRange (ring_buf_comm_init s).tx_buffer) ∧
    (c.tx_buffer.head = c.tx_buffer.tail → ∀ src : Nat → Byte,
      (∀ k, k < RING_BUF_SIZE - 1 →
        (ring_buf_comm_write (single_writes src (some c) k) (some (fun _ => src k)) 1
          (some 0)).ret = true ∧
        (ring_buf_comm_write (single_writes src (some c) k) (some (fun _ => src k)) 1
          (some 0)).written_len = some 1) ∧
      (ring_buf_comm_write (single_writes src (some c) (RING_BUF_SIZE - 1))
          (some (fun _ => src (RING_BUF_SIZE - 1))) 1 (some 0)).ret = false ∧
      (ring_buf_comm_write (single_writes src (some c) (RING_BUF_SIZE - 1))
          (some (fun _ => src (RING_BUF_SIZE - 1))) 1 (some 0)).written_len = some 0) := by
  refine ⟨fun calls => ?_, fun s => ?_, fun he src => ⟨fun k hk => ?_, ?_⟩⟩
  · obtain ⟨c2, h1, h2⟩ := write_seq_inRange calls c hr
    have := available_lt c2.tx_buffer h2
    exact ⟨c2, h1, h2, by omega⟩
  · exact ⟨RING_BUF_SIZE_pos, RING_BUF_SIZE_pos⟩
  · obtain ⟨ck, h1, h2, h3⟩ := single_writes_available src c hr he k (by omega)
    obtain ⟨q1, q2, -, -, -, -, -⟩ := write_loop_spec (fun _ => src k) 1 0 ck.tx_buffer 0 h2
    rw [h1, write_valid]
    refine ⟨q2.2 (by omega), ?_⟩
    show some (write_loop (fun _ => src k) 1 0 ck.tx_buffer 0).written_len = some 1
    rw [q1, h3]
    congr 1
    omega
  · obtain ⟨ck, h1, h2, h3⟩ :=
      single_writes_available src c hr he (RING_BUF_SIZE - 1) (le_refl _)
    obtain ⟨q1, q2, -, -, -, -, -⟩ :=
      write_loop_spec (fun _ => src (RING_BUF_SIZE - 1)) 1 0 ck.tx_buffer 0 h2
    rw [h1, write_valid]
    refine ⟨?_, ?_⟩
    · show (write_loop (fun _ => src (RING_BUF_SIZE - 1)) 1 0 ck.tx_buffer 0).ret = false
      cases hret : (write_loop (fun _ => src (RING_BUF_SIZE - 1)) 1 0 ck.tx_buffer 0).ret with
      | false => rfl
      | true =>
        have := q2.1 hret
        omega
    · show some (write_loop (fun _ => src (RING_BUF_SIZE - 1)) 1 0 ck.tx_buffer 0).written_len
        = some 0
      rw [q1, h3]
      simp

/-- Witness for C7 on `wrapComm`, whose transmit buffer is empty. -/
theorem capacity_invariant_witness :
    InRange wrapComm.tx_buffer ∧
    (∀ calls, ∃ c2, write_seq (some wrapComm) calls = some c2 ∧ InRange c2.tx_buffer ∧
      ring_buf_available c2.tx_buffer ≤ RING_BUF_SIZE - 1) ∧
    (ring_buf_comm_write (single_writes wrapStore (some wrapComm) (RING_BUF_SIZE - 1))
        (some (fun _ => wrapStore (RING_BUF_SIZE - 1))) 1 (some 0)).ret = false :=
  ⟨by unfold InRange; decide,
    (capacity_invariant wrapComm (by unfold InRange; decide)).1,
    ((capacity_invariant wrapComm (by unfold InRange; decide)).2.2 rfl wrapStore).2.1⟩

/-! ## Terminator across the wrap point, empty buffer -/

/-- C9. For a non-empty terminator `t` of length `L`, a read index in range
and a receive buffer with at least `L` available bytes whose storage holds
`t[j]` at physical position `(tail + j) mod RING_BUF_SIZE` for `j < L` (these
positions may pass from index `RING_BUF_SIZE - 1` to index 0),
`ring_buf_comm_read` with destination capacity at least `L` returns true with
`*read_len = L`.  (The bound `L ≤ RING_BUF_SIZE - 1` is not needed as a separate
hypothesis.) -/
theorem terminator_across_wrap (c : RingBufComm) (dst : Nat → Byte) (cap : Nat)
    (tm : List Byte) (rl : Nat) (ov peek : Bool)
    (ht : c.rx_buffer.tail < RING_BUF_SIZE) (hne : cstr tm ≠ [])
    (hav : (cstr tm).length ≤ ring_buf_available c.rx_buffer)
    (hcap : (cstr tm).length ≤ cap)
    (hst : ∀ j, j < (cstr tm).length →
      (cstr tm)[j]? = some (c.rx_buffer.buffer ((c.rx_buffer.tail + j) % RING_BUF_SIZE))) :
    (ring_buf_comm_read (some c) (some dst) cap (some tm) (some rl) (some ov) peek).ret = true ∧
    (ring_buf_comm_read (some c) (some dst) cap (some tm) (some rl) (some ov) peek).read_len
      = some (cstr tm).length := by
  have hpos := strlen_pos tm hne
  have hlen : (cstr tm).length = strlen tm := rfl
  rw [hlen] at hav hcap hst ⊢
  have hmat : MatchAt (logical c.rx_buffer) tm (strlen tm) (strlen tm) := by
    refine ⟨le_refl _, fun j hj => ?_⟩
    rw [cstr_getD tm j hj, List.getD_eq_getElem?_getD, hst j hj]
    simp [logical]
  obtain ⟨h1, h2, h3, h4⟩ := read_loop_first c.rx_buffer tm cap dst ht hpos
  rw [read_valid]
  have h0 : ring_buf_available c.rx_buffer ≠ 0 := by omega
  simp only [h0, if_false]
  cases hf : (read_loop c.rx_buffer tm (strlen tm) cap (ring_buf_available c.rx_buffer)
      dst 0 c.rx_buffer.tail).found_terminator with
  | true =>
    refine ⟨rfl, ?_⟩
    have hge := (h3 hf).1
    rcases Nat.lt_or_ge (strlen tm) (read_loop c.rx_buffer tm (strlen tm) cap
        (ring_buf_available c.rx_buffer) dst 0 c.rx_buffer.tail).i with hlt | hle
    · exact absurd hmat (h2 _ hlt)
    · congr 1
      omega
  | false =>
    obtain ⟨h5, h6⟩ := h4 hf
    rcases Nat.lt_or_ge (strlen tm) (read_loop c.rx_buffer tm (strlen tm) cap
        (ring_buf_available c.rx_buffer) dst 0 c.rx_buffer.tail).i with hlt | hle
    · exact absurd hmat (h2 _ hlt)
    · have : (read_loop c.rx_buffer tm (strlen tm) cap
          (ring_buf_available c.rx_buffer) dst 0 c.rx_buffer.tail).i = strlen tm := by omega
      rw [this] at h6
      exact absurd hmat h6

/-- Witness for C9: terminator AB with A at the last index and B at index 0. -/
theorem terminator_across_wrap_witness :
    abComm.rx_buffer.tail = RING_BUF_SIZE - 1 ∧
    abComm.rx_buffer.buffer (RING_BUF_SIZE - 1) = 65 ∧ abComm.rx_buffer.buffer 0 = 66 ∧
    (ring_buf_comm_read (some abComm) (some zeroStore) 16 (some termAB) (some 0) (some false)
      false).ret = true ∧
    (ring_buf_comm_read (some abComm) (some zeroStore) 16 (some termAB) (some 0) (some false)
      false).read_len = some (cstr termAB).length :=
  ⟨by decide, by decide, by decide,
    terminator_across_wrap abComm zeroStore 16 termAB 0 false false (by decide) (by decide)
      (by decide) (by decide) (by decide)⟩

/-- C10. When the receive buffer is empty (write index equal to read index),
`ring_buf_comm_read` with valid pointers returns false, sets `*read_len = 0`
and `*overflow` to the overflow flag of the receive buffer, and leaves the
session and the destination as they were, in either peek mode. -/
theorem read_empty (c : RingBufComm) (dst : Nat → Byte) (cap : Nat) (tm : List Byte)
    (rl : Nat) (ov peek : Bool) (he : c.rx_buffer.head = c.rx_buffer.tail) :
    ring_buf_comm_read (some c) (some dst) cap (some tm) (some rl) (some ov) peek
      = ⟨false, some c, some dst, some 0, some c.rx_buffer.overflow⟩ := by
  have h0 : ring_buf_available c.rx_buffer = 0 := by
    unfold ring_buf_available
    rw [he]
    simp
  rw [read_valid, if_pos h0]

/-- Witness for C10 on `idleComm`, in destructive mode. -/
theorem read_empty_witness :
    idleComm.rx_buffer.head = idleComm.rx_buffer.tail ∧
    ring_buf_comm_read (some idleComm) (some zeroStore) 16 (some newline) (some 5) (some false)
      false = ⟨false, some idleComm, some zeroStore, some 0, some true⟩ :=
  ⟨rfl, read_empty idleComm zeroStore 16 newline 5 false false rfl⟩

/-! ## Round trip through one ring buffer -/

theorem termAt_block (D t : List Byte) (m k : Nat) (h : TermAt D t m k) : t <:+: D := by
  obtain ⟨-, -, h3⟩ := h
  rw [← h3]
  exact (List.drop_suffix _ _).isInfix.trans (List.take_prefix _ _).isInfix

theorem head_eq_tail_of_available_zero (rb : RingBuffer) (hr : InRange rb)
    (h0 : ring_buf_available rb = 0) : rb.head = rb.tail := by
  rw [available_of_inRange rb hr] at h0
  obtain ⟨hh, ht⟩ := hr
  simp only [RING_BUF_SIZE] at *
  omega

theorem available_zero_of_eq (rb : RingBuffer) (he : rb.head = rb.tail) :
    ring_buf_available rb = 0 := by
  unfold ring_buf_available
  rw [he]
  simp

/-- A destructive read of an in-range buffer whose contents do not contain the
terminator, with room for all of them, delivers the whole contents and
empties the buffer. -/
theorem read_all (c : RingBufComm) (dst : Nat → Byte) (cap : Nat) (tm : List Byte)
    (rl : Nat) (ov : Bool) (hr : InRange c.rx_buffer) (hne : cstr tm ≠ [])
    (hno : ¬ cstr tm <:+: contents c.rx_buffer)
    (hcap : ring_buf_available c.rx_buffer ≤ cap) :
    ∃ c2 out,
      ring_buf_comm_read (some c) (some dst) cap (some tm) (some rl) (some ov) false
        = ⟨false, some c2, some out, some (ring_buf_available c.rx_buffer),
            some c.rx_buffer.overflow⟩ ∧
      bytes out (ring_buf_available c.rx_buffer) = contents c.rx_buffer ∧
      InRange c2.rx_buffer ∧ c2.rx_buffer.head = c2.rx_buffer.tail := by
  rw [read_valid]
  by_cases h0 : ring_buf_available c.rx_buffer = 0
  · simp only [h0, if_true]
    refine ⟨c, dst, rfl, ?_, hr, head_eq_tail_of_available_zero _ hr h0⟩
    simp [bytes, contents, h0]
  · simp only [h0, if_false]
    obtain ⟨g1, g2, -, -, -, -, -, -, -⟩ :=
      read_loop_spec c.rx_buffer tm (strlen tm) cap (ring_buf_available c.rx_buffer) dst 0
        c.rx_buffer.tail (by rw [Nat.add_zero, Nat.mod_eq_of_lt hr.2]) (Nat.zero_le _)
        (fun j hj => by omega)
    obtain ⟨h1, -, h3, h4⟩ := read_loop_first c.rx_buffer tm cap dst hr.2 (strlen_pos tm hne)
    have hf : (read_loop c.rx_buffer tm (strlen tm) cap (ring_buf_available c.rx_buffer)
        dst 0 c.rx_buffer.tail).found_terminator = false := by
      cases hf : (read_loop c.rx_buffer tm (strlen tm) cap (ring_buf_available c.rx_buffer)
          dst 0 c.rx_buffer.tail).found_terminator with
      | false => rfl
      | true =>
        have hterm := (termAt_iff_matchAt c.rx_buffer tm
          (min cap (ring_buf_available c.rx_buffer)) _ (Nat.min_le_right _ _)).2 ⟨h1, h3 hf⟩
        exact absurd (termAt_block _ _ _ _ hterm) hno
    have hi : (read_loop c.rx_buffer tm (strlen tm) cap (ring_buf_available c.rx_buffer)
        dst 0 c.rx_buffer.tail).i = ring_buf_available c.rx_buffer := by
      rw [(h4 hf).1]
      omega
    obtain ⟨ha, -⟩ := advance_tail c.rx_buffer (ring_buf_available c.rx_buffer)
      c.rx_buffer.overflow hr (le_refl _)
    rw [hi] at g1 g2
    simp only [hf, hi, g1, Bool.false_eq_true, if_false]
    refine ⟨_, _, rfl, ?_, ?_, ?_⟩
    · rw [← List.take_length (contents c.rx_buffer), contents_length,
        take_contents c.rx_buffer _ (le_refl _)]
      unfold bytes
      apply List.map_congr_left
      intro j hj
      exact g2 j (List.mem_range.1 hj)
    · exact ⟨hr.1, Nat.mod_lt _ RING_BUF_SIZE_pos⟩
    · have hz := Nat.add_right_cancel (ha.trans (Nat.zero_add _).symm)
      exact head_eq_tail_of_available_zero _ ⟨hr.1, Nat.mod_lt _ RING_BUF_SIZE_pos⟩ hz

/-- One write-then-read round on an empty in-range ring buffer returns the
data written and leaves the buffer empty and in range. -/
theorem round_trip_spec (c : RingBufComm) (rb : RingBuffer) (data : Nat → Byte) (N : Nat)
    (dst : Nat → Byte) (cap : Nat) (tm : List Byte)
    (hN : N < RING_BUF_SIZE) (hp : rb.tail < RING_BUF_SIZE) (he : rb.head = rb.tail)
    (hne : cstr tm ≠ []) (hno : ¬ cstr tm <:+: bytes data N) (hcap : N ≤ cap) :
    ∃ r, round_trip c rb data N dst cap tm = some r ∧ r.accepted = true ∧
      r.written_len = N ∧ r.read_len = N ∧ bytes r.rcvr N = bytes data N ∧
      ring_buf_available r.rb = 0 ∧ r.rb.tail < RING_BUF_SIZE ∧ r.rb.head = r.rb.tail := by
  have hr : InRange rb := ⟨he ▸ hp, hp⟩
  have h0 := available_zero_of_eq rb he
  obtain ⟨w1, w2, w3, w4, w5, -, -⟩ := write_loop_spec data N 0 rb 0 hr
  have hmin : min N (RING_BUF_SIZE - 1 - ring_buf_available rb) = N := by omega
  have hc0 : contents rb = [] := by simp [contents, h0]
  rw [hmin] at w1 w4 w5
  rw [hc0, List.nil_append] at w5
  rw [h0, Nat.zero_add] at w4
  rw [Nat.zero_add] at w1
  have w5b : contents (write_loop data N 0 rb 0).rb = bytes data N := by
    rw [w5]
    simp [bytes]
  have wret : (write_loop data N 0 rb 0).ret = true := w2.2 (by omega)
  obtain ⟨c2, out, e, hb, hr2, he2⟩ := read_all
    { rx_buffer := (write_loop data N 0 rb 0).rb, tx_buffer := (write_loop data N 0 rb 0).rb,
      terminator := c.terminator, rx_callback_threshold := c.rx_callback_threshold,
      rx_callback := c.rx_callback } dst cap tm 0 false w3 hne
    (by rw [w5b]; exact hno) (by rw [w4]; exact hcap)
  unfold round_trip
  rw [write_valid]
  dsimp only
  rw [e]
  dsimp only
  dsimp only at hb
  rw [w4, w5b] at hb
  exact ⟨_, rfl, wret, w1, w4, hb, available_zero_of_eq _ he2, hr2.2, he2⟩

theorem round_trips_empty (c : RingBufComm) (rb : RingBuffer) (data : Nat → Byte) (N : Nat)
    (dst : Nat → Byte) (cap : Nat) (tm : List Byte)
    (hN : N < RING_BUF_SIZE) (hp : rb.tail < RING_BUF_SIZE) (he : rb.head = rb.tail)
    (hne : cstr tm ≠ []) (hno : ¬ cstr tm <:+: bytes data N) (hcap : N ≤ cap) :
    ∀ n, ∃ rbn, round_trips c data N dst cap tm n rb = some rbn ∧
      rbn.tail < RING_BUF_SIZE ∧ rbn.head = rbn.tail := by
  intro n
  induction n with
  | zero => exact ⟨rb, rfl, hp, he⟩
  | succ n ih =>
    obtain ⟨rbn, h1, h2, h3⟩ := ih
    obtain ⟨r, e, -, -, -, -, -, q1, q2⟩ :=
      round_trip_spec c rbn data N dst cap tm hN h2 h3 hne hno hcap
    refine ⟨r.rb, ?_, q1, q2⟩
    simp only [round_trips, h1, Option.some_bind, e, Option.map_some']

/-- C8. Wrap round trip on one ring buffer that is empty at any index
`p < RING_BUF_SIZE`: for `N < RING_BUF_SIZE`, data `d` of length `N`, a
non-empty terminator that is not a contiguous block of `d`, and destination
capacity at least `N`, `ring_buf_comm_write` accepts all `N` bytes and the
destructive `ring_buf_comm_read` that follows sets `*read_len = N`, delivers
`d` in order and leaves the buffer empty; and the same holds for the round
made after any number `n` of such rounds. -/
theorem wrap_round_trip (c : RingBufComm) (rb : RingBuffer) (data : Nat → Byte) (N : Nat)
    (dst : Nat → Byte) (cap : Nat) (tm : List Byte)
    (hN : N < RING_BUF_SIZE) (hp : rb.tail < RING_BUF_SIZE) (he : rb.head = rb.tail)
    (hne : cstr tm ≠ []) (hno : ¬ cstr tm <:+: bytes data N) (hcap : N ≤ cap) :
    ∀ n, ∃ rbn r, round_trips c data N dst cap tm n rb = some rbn ∧
      round_trip c rbn data N dst cap tm = some r ∧
      r.accepted = true ∧ r.written_len = N ∧ r.read_len = N ∧
      bytes r.rcvr N = bytes data N ∧ ring_buf_available r.rb = 0 := by
  intro n
  obtain ⟨rbn, h1, h2, h3⟩ := round_trips_empty c rb data N dst cap tm hN hp he hne hno hcap n
  obtain ⟨r, e, q1, q2, q3, q4, q5, -, -⟩ :=
    round_trip_spec c rbn data N dst cap tm hN h2 h3 hne hno hcap
  exact ⟨rbn, r, h1, e, q1, q2, q3, q4, q5⟩

/-- Witness for C8: five bytes written at index 1022, so that they straddle the
wrap point, then read back; first round and the round after it. -/
theorem wrap_round_trip_witness :
    edgeBuffer.tail < RING_BUF_SIZE ∧ edgeBuffer.head = edgeBuffer.tail ∧
    cstr newline ≠ [] ∧ ¬ cstr newline <:+: bytes helloData 5 ∧
    ∀ n, ∃ rbn r, round_trips wrapComm helloData 5 zeroStore 16 newline n edgeBuffer = some rbn ∧
      round_trip wrapComm rbn helloData 5 zeroStore 16 newline = some r ∧
      r.accepted = true ∧ r.written_len = 5 ∧ r.read_len = 5 ∧
      bytes r.rcvr 5 = bytes helloData 5 ∧ ring_buf_available r.rb = 0 :=
  ⟨by decide, rfl, by decide, by decide,
    wrap_round_trip wrapComm edgeBuffer helloData 5 zeroStore 16 newline (by decide) (by decide)
      rfl (by decide) (by decide) (by decide)⟩

/-! ## Overflow output, null pointers, empty terminator -/

/-- C11. For every `ring_buf_comm_read` call with valid pointers, in either peek
mode and whether or not the terminator is found, `*overflow` after the call is
the overflow flag the receive buffer had at entry. -/
theorem read_overflow_output (c : RingBufComm) (dst : Nat → Byte) (cap : Nat)
    (tm : List Byte) (rl : Nat) (ov peek : Bool) :
    (ring_buf_comm_read (some c) (some dst) cap (some tm) (some rl) (some ov) peek).overflow
      = some c.rx_buffer.overflow := by
  rw [read_valid]
  split <;> rfl

/-- C12. If one of the pointers of `ring_buf_comm_read` (`comm`, `rcvr`,
`read_len`, `terminator`, `overflow`) is null, the call returns false and
leaves every pointee as it was; if one of the pointers of
`ring_buf_comm_write` (`comm`, `data`, `written_len`) is null, the call
returns false and leaves the session and `*written_len` as they were. -/
theorem null_arguments (comm : Option RingBufComm) (rcvr data : Option (Nat → Byte))
    (cap data_len : Nat) (terminator : Option (List Byte)) (read_len written_len : Option Nat)
    (overflow : Option Bool) (peek : Bool) :
    ((comm = none ∨ rcvr = none ∨ read_len = none ∨ terminator = none ∨ overflow = none) →
      ring_buf_comm_read comm rcvr cap terminator read_len overflow peek
        = ⟨false, comm, rcvr, read_len, overflow⟩) ∧
    ((comm = none ∨ data = none ∨ written_len = none) →
      ring_buf_comm_write comm data data_len written_len = ⟨false, comm, written_len⟩) := by
  constructor
  · intro h
    cases comm <;> cases rcvr <;> cases read_len <;> cases terminator <;> cases overflow <;>
      first
        | rfl
        | (exfalso; simp at h)
  · intro h
    cases comm <;> cases data <;> cases written_len <;>
      first
        | rfl
        | (exfalso; simp at h)

/-- Witness for C12: a null `read_len` and a null `data`, on a session with data
pending in the receive buffer. -/
theorem null_arguments_witness :
    ring_buf_comm_read (some wrapComm) (some zeroStore) 16 (some newline) none (some true) false
        = ⟨false, some wrapComm, some zeroStore, none, some true⟩ ∧
    ring_buf_comm_write (some wrapComm) none 3 (some 7) = ⟨false, some wrapComm, some 7⟩ :=
  ⟨(null_arguments (some wrapComm) (some zeroStore) none 16 3 (some newline) none (some 7)
      (some true) false).1 (Or.inr (Or.inr (Or.inl rfl))),
    (null_arguments (some wrapComm) (some zeroStore) none 16 3 (some newline) none (some 7)
      (some true) false).2 (Or.inr (Or.inl rfl))⟩

/-- Counterexample for C13: on `wrapComm` (five bytes pending, read index 1022,
overflow flag set) a destructive read with the empty terminator returns true
with `*read_len = 1`, moves the read index to 1023 and clears the overflow
flag. -/
theorem empty_terminator_accepted :
    cstr emptyTerm = [] ∧
    wrapComm.rx_buffer.tail = 1022 ∧ wrapComm.rx_buffer.overflow = true ∧
    (ring_buf_comm_read (some wrapComm) (some zeroStore) 16 (some emptyTerm) (some 0)
      (some false) false).ret = true ∧
    (ring_buf_comm_read (some wrapComm) (some zeroStore) 16 (some emptyTerm) (some 0)
      (some false) false).read_len = some 1 ∧
    (ring_buf_comm_read (some wrapComm) (some zeroStore) 16 (some emptyTerm) (some 0)
      (some false) false).comm.map (fun c => c.rx_buffer.tail) = some 1023 ∧
    (ring_buf_comm_read (some wrapComm) (some zeroStore) 16 (some emptyTerm) (some 0)
      (some false) false).comm.map (fun c => c.rx_buffer.overflow) = some false := by
  decide

/-- C13, amended. A `ring_buf_comm_read` call with valid pointers whose
terminator is the empty string is not rejected.  If the receive buffer is
empty or the destination capacity is 0, it returns false with `*read_len = 0`
and leaves the session as it was.  Otherwise it returns true with
`*read_len = 1`; with `peek = true` the session is left as it was, with
`peek = false` the read index advances by one modulo `RING_BUF_SIZE` and the
overflow flag is cleared. -/
theorem empty_terminator_read (c : RingBufComm) (dst : Nat → Byte) (cap : Nat)
    (tm : List Byte) (rl : Nat) (ov peek : Bool) (hempty : cstr tm = []) :
    ((ring_buf_available c.rx_buffer = 0 ∨ cap = 0) →
      (ring_buf_comm_read (some c) (some dst) cap (some tm) (some rl) (some ov) peek).ret = false ∧
      (ring_buf_comm_read (some c) (some dst) cap (some tm) (some rl) (some ov) peek).read_len
        = some 0 ∧
      (ring_buf_comm_read (some c) (some dst) cap (some tm) (some rl) (some ov) peek).comm
        = some c) ∧
    (ring_buf_available c.rx_buffer ≠ 0 → 0 < cap →
      (ring_buf_comm_read (some c) (some dst) cap (some tm) (some rl) (some ov) peek).ret = true ∧
      (ring_buf_comm_read (some c) (some dst) cap (some tm) (some rl) (some ov) peek).read_len
        = some 1 ∧
      (peek = true →
        (ring_buf_comm_read (some c) (some dst) cap (some tm) (some rl) (some ov) peek).comm
          = some c) ∧
      (peek = false →
        (ring_buf_comm_read (some c) (some dst) cap (some tm) (some rl) (some ov) peek).comm
          = some { c with rx_buffer :=
              { c.rx_buffer with
                tail := (c.rx_buffer.tail + 1) % RING_BUF_SIZE, overflow := false } })) := by
  have hL : strlen tm = 0 := by simp [strlen, hempty]
  rw [read_valid, hL]
  constructor
  · rintro (h0 | hcap)
    · simp only [h0, if_true, and_self]
    · by_cases h0 : ring_buf_available c.rx_buffer = 0
      · simp only [h0, if_true, and_self]
      · obtain ⟨a, ha⟩ := Nat.exists_eq_succ_of_ne_zero h0
        rw [ha, hcap]
        simp only [Nat.succ_ne_zero, if_false, read_loop, Nat.lt_irrefl]
        cases peek <;> simp
  · intro h0 hcap
    obtain ⟨a, ha⟩ := Nat.exists_eq_succ_of_ne_zero h0
    rw [ha]
    simp only [Nat.succ_ne_zero, if_false, read_loop, hcap, if_true, match_loop, ge_iff_le,
      Nat.zero_le, and_self, next_index]
    refine ⟨trivial, trivial, ?_, ?_⟩
    · intro hp; subst hp; simp
    · intro hp; subst hp; simp

/-- Witness for C13 amended, on `wrapComm` in destructive mode. -/
theorem empty_terminator_read_witness :
    cstr emptyTerm = [] ∧
    (ring_buf_comm_read (some wrapComm) (some zeroStore) 16 (some emptyTerm) (some 0)
      (some false) false).ret = true ∧
    (ring_buf_comm_read (some wrapComm) (some zeroStore) 16 (some emptyTerm) (some 0)
      (some false) false).read_len = some 1 :=
  ⟨by decide,
    ((empty_terminator_read wrapComm zeroStore 16 emptyTerm 0 false false (by decide)).2
      (by decide) (by decide)).1,
    ((empty_terminator_read wrapComm zeroStore 16 emptyTerm 0 false false (by decide)).2
      (by decide) (by decide)).2.1⟩

/-! ## Initialisation, the concrete scenario, the callback -/

/-- C14. Whatever the session held before, `ring_buf_comm_init` leaves the same
state: both ring buffers with all-zero storage, write index and read index 0
and overflow false, hence nothing available; `terminator` holding a newline
followed by seven NUL bytes, a string of length 1; `rx_callback_threshold`
equal to `RING_BUF_SIZE`; `rx_callback` null.  So the result does not depend
on the previous state, and initialising twice is the same as once. -/
theorem init_state (s : RingBufComm) :
    ring_buf_comm_init s =
      { rx_buffer := ⟨fun _ => 0, 0, 0, false⟩
        tx_buffer := ⟨fun _ => 0, 0, 0, false⟩
        terminator := [10, 0, 0, 0, 0, 0, 0, 0]
        rx_callback_threshold := RING_BUF_SIZE
        rx_callback := none } ∧
    cstr (ring_buf_comm_init s).terminator = [10] ∧
    ring_buf_available (ring_buf_comm_init s).rx_buffer = 0 ∧
    ring_buf_available (ring_buf_comm_init s).tx_buffer = 0 ∧
    contents (ring_buf_comm_init s).rx_buffer = [] ∧
    contents (ring_buf_comm_init s).tx_buffer = [] ∧
    ring_buf_comm_init (ring_buf_comm_init s) = ring_buf_comm_init s ∧
    ∀ s2, ring_buf_comm_init s2 = ring_buf_comm_init s :=
  ⟨rfl, rfl, rfl, rfl, rfl, rfl, rfl, fun _ => rfl⟩

theorem scenario_first (s : RingBufComm) (dst : Nat → Byte) (rl : Nat) (ov : Bool) :
    ring_buf_comm_read (some (scenarioComm s)) (some dst) 16 (some newline) (some rl)
      (some ov) false
    = ⟨true, some { scenarioComm s with rx_buffer := ⟨scenarioStore, 5, 3, false⟩ },
        some (Function.update (Function.update (Function.update dst 0 104) 1 105) 2 10),
        some 3, some false⟩ := by
  rfl

theorem scenario_second (s : RingBufComm) (dst : Nat → Byte) (rl : Nat) (ov : Bool) :
    ring_buf_comm_read (some { scenarioComm s with rx_buffer := ⟨scenarioStore, 5, 3, false⟩ })
      (some dst) 16 (some newline) (some rl) (some ov) false
    = ⟨false, some { scenarioComm s with rx_buffer := ⟨scenarioStore, 5, 5, false⟩ },
        some (Function.update (Function.update dst 0 121) 1 111),
        some 2, some false⟩ := by
  rfl

/-- C15. From an initialised session whose receive buffer then holds the five
bytes h, i, newline, y, o from index 0 with overflow clear, a destructive
`ring_buf_comm_read` with terminator newline and capacity 16 returns true
with `*read_len = 3`, `*overflow = false` and the bytes h, i, newline in the
destination; a second destructive call with the same arguments returns false
with `*read_len = 2`, `*overflow = false` and the bytes y, o in the
destination, and leaves the receive buffer empty. -/
theorem scenario_two_reads (s : RingBufComm) (dst : Nat → Byte) (rl : Nat) (ov : Bool) :
    contents (scenarioComm s).rx_buffer = [104, 105, 10, 121, 111] ∧
    (scenarioComm s).rx_buffer.tail = 0 ∧ (scenarioComm s).rx_buffer.overflow = false ∧
    (scenario_read1 s dst rl ov).ret = true ∧
    (scenario_read1 s dst rl ov).read_len = some 3 ∧
    (scenario_read1 s dst rl ov).overflow = some false ∧
    (scenario_read1 s dst rl ov).rcvr.map (fun m => bytes m 3) = some [104, 105, 10] ∧
    (scenario_read2 s dst rl ov).ret = false ∧
    (scenario_read2 s dst rl ov).read_len = some 2 ∧
    (scenario_read2 s dst rl ov).overflow = some false ∧
    (scenario_read2 s dst rl ov).rcvr.map (fun m => bytes m 2) = some [121, 111] ∧
    (scenario_read2 s dst rl ov).comm.map (fun c => ring_buf_available c.rx_buffer) = some 0 ∧
    (scenario_read2 s dst rl ov).comm.map (fun c => contents c.rx_buffer) = some [] := by
  have e1 := scenario_first s dst rl ov
  have e2 : scenario_read2 s dst rl ov = _ :=
    (congrArg (fun r : ReadResult =>
      ring_buf_comm_read r.comm r.rcvr 16 (some newline) r.read_len r.overflow false) e1).trans
      (scenario_second s _ 3 false)
  have e1b : scenario_read1 s dst rl ov = _ := e1
  rw [e1b, e2]
  exact ⟨rfl, rfl, rfl, rfl, rfl, rfl, rfl, rfl, rfl, rfl, rfl, rfl, rfl⟩

/-- C16. `ring_buf_comm_set_callback` on a valid session stores the hook (null
included) in `rx_callback` and leaves both ring buffers, `terminator` and
`rx_callback_threshold` as they were; of two calls in a row only the last
hook is kept; on a null session nothing happens. -/
theorem set_callback_frame (c : RingBufComm) (h1 h2 : Option Nat) :
    ring_buf_comm_set_callback (some c) h2 = some { c with rx_callback := h2 } ∧
    (∃ c2, ring_buf_comm_set_callback (some c) h2 = some c2 ∧
      c2.rx_callback = h2 ∧ c2.rx_buffer = c.rx_buffer ∧ c2.tx_buffer = c.tx_buffer ∧
      c2.terminator = c.terminator ∧
      c2.rx_callback_threshold = c.rx_callback_threshold) ∧
    ring_buf_comm_set_callback (ring_buf_comm_set_callback (some c) h1) h2
      = ring_buf_comm_set_callback (some c) h2 ∧
    ring_buf_comm_set_callback none h2 = none :=
  ⟨rfl, ⟨_, rfl, rfl, rfl, rfl, rfl, rfl⟩, rfl, rfl⟩

/-! ## Frame conditions of the calls -/

/-- The `for` loop of `ring_buf_comm_write` never touches the read index or the
overflow flag, whatever the indices are. -/
theorem write_loop_frame (data : Nat → Byte) :
    ∀ (n i : Nat) (rb : RingBuffer) (w : Nat),
      (write_loop data n i rb w).rb.tail = rb.tail ∧
      (write_loop data n i rb w).rb.overflow = rb.overflow ∧
      w ≤ (write_loop data n i rb w).written_len := by
  intro n
  induction n with
  | zero => intro i rb w; exact ⟨rfl, rfl, le_refl _⟩
  | succ n ih =>
    intro i rb w
    simp only [write_loop]
    split
    · exact ⟨rfl, rfl, le_refl _⟩
    · obtain ⟨h1, h2, h3⟩ := ih (i + 1)
        { rb with buffer := Function.update rb.buffer rb.head (data i),
                  head := ((rb.head + 1) % SIZE_MOD) % RING_BUF_SIZE } (w + 1)
      exact ⟨h1, h2, by omega⟩

/-- With the write index in range, the `for` loop of `ring_buf_comm_write`
changes the storage only at the positions `(head + q) mod RING_BUF_SIZE` for
`q` below the number of bytes it stored. -/
theorem write_loop_storage (data : Nat → Byte) :
    ∀ (n i : Nat) (rb : RingBuffer) (w : Nat), rb.head < RING_BUF_SIZE →
      ∀ p, (∀ q, q < (write_loop data n i rb w).written_len - w →
          p ≠ (rb.head + q) % RING_BUF_SIZE) →
        (write_loop data n i rb w).rb.buffer p = rb.buffer p := by
  intro n
  induction n with
  | zero => intro i rb w _ p _; rfl
  | succ n ih =>
    intro i rb w hh p hp
    simp only [write_loop] at hp ⊢
    by_cases hfull : ((rb.head + 1) % SIZE_MOD) % RING_BUF_SIZE = rb.tail
    · simp only [hfull, if_true]
    · simp only [hfull, if_false] at hp ⊢
      obtain ⟨-, -, hw⟩ := write_loop_frame data n (i + 1)
        { rb with buffer := Function.update rb.buffer rb.head (data i),
                  head := ((rb.head + 1) % SIZE_MOD) % RING_BUF_SIZE } (w + 1)
      have step1 := ih (i + 1)
        { rb with buffer := Function.update rb.buffer rb.head (data i),
                  head := ((rb.head + 1) % SIZE_MOD) % RING_BUF_SIZE } (w + 1)
        (Nat.mod_lt _ RING_BUF_SIZE_pos) p (by
          intro q hq
          have := hp (q + 1) (by omega)
          show p ≠ (((rb.head + 1) % SIZE_MOD) % RING_BUF_SIZE + q) % RING_BUF_SIZE
          rw [next_index]
          simp only [RING_BUF_SIZE] at *
          omega)
      rw [step1]
      show Function.update rb.buffer rb.head (data i) p = rb.buffer p
      have h0 := hp 0 (by omega)
      rw [Nat.add_zero, Nat.mod_eq_of_lt hh] at h0
      exact Function.update_noteq h0 _ _

/-- What a `ring_buf_comm_read` call on a valid session, with any other
arguments, leaves of the session. -/
theorem read_comm_frame (c : RingBufComm) (rcvr : Option (Nat → Byte)) (cap : Nat)
    (terminator : Option (List Byte)) (read_len : Option Nat) (overflow : Option Bool)
    (peek : Bool) :
    ∃ c2, (ring_buf_comm_read (some c) rcvr cap terminator read_len overflow peek).comm
        = some c2 ∧
      c2.tx_buffer = c.tx_buffer ∧ c2.rx_buffer.buffer = c.rx_buffer.buffer ∧
      c2.rx_buffer.head = c.rx_buffer.head ∧ c2.terminator = c.terminator ∧
      c2.rx_callback_threshold = c.rx_callback_threshold ∧ c2.rx_callback = c.rx_callback ∧
      (c.rx_buffer.overflow = false → c2.rx_buffer.overflow = false) ∧
      (c.rx_buffer.tail < RING_BUF_SIZE → c2.rx_buffer.tail < RING_BUF_SIZE) := by
  cases rcvr <;> cases read_len <;> cases terminator <;> cases overflow <;>
    try exact ⟨c, rfl, rfl, rfl, rfl, rfl, rfl, rfl, fun h => h, fun h => h⟩
  rename_i dst rl tm ov
  rw [read_valid]
  by_cases h0 : ring_buf_available c.rx_buffer = 0
  · simp only [h0, if_true]
    exact ⟨c, rfl, rfl, rfl, rfl, rfl, rfl, rfl, fun h => h, fun h => h⟩
  · simp only [h0, if_false]
    refine ⟨_, rfl, rfl, ?_, ?_, rfl, rfl, rfl, ?_, ?_⟩
    · cases peek with
      | false => simp; split <;> rfl
      | true => simp
    · cases peek with
      | false => simp; split <;> rfl
      | true => simp
    · intro hov
      cases peek <;> simp [hov]
    · intro ht
      obtain ⟨h1, -, -, -, -, -, -, -, -⟩ :=
        read_loop_spec c.rx_buffer tm (strlen tm) cap (ring_buf_available c.rx_buffer) dst 0
          c.rx_buffer.tail (by rw [Nat.add_zero, Nat.mod_eq_of_lt ht]) (Nat.zero_le _)
          (fun j hj => by omega)
      have hlt : (read_loop c.rx_buffer tm (strlen tm) cap (ring_buf_available c.rx_buffer)
          dst 0 c.rx_buffer.tail).temp_tail < RING_BUF_SIZE := by
        rw [h1]
        exact Nat.mod_lt _ RING_BUF_SIZE_pos
      cases peek with
      | false => simp; split <;> exact hlt
      | true => simpa using ht

/-- What a `ring_buf_comm_write` call on a valid session, with any other
arguments, leaves of the session. -/
theorem write_comm_frame (c : RingBufComm) (data : Option (Nat → Byte)) (data_len : Nat)
    (written_len : Option Nat) :
    ∃ c2, (ring_buf_comm_write (some c) data data_len written_len).comm = some c2 ∧
      c2.rx_buffer = c.rx_buffer ∧ c2.tx_buffer.tail = c.tx_buffer.tail ∧
      c2.tx_buffer.overflow = c.tx_buffer.overflow ∧ c2.terminator = c.terminator ∧
      c2.rx_callback_threshold = c.rx_callback_threshold ∧ c2.rx_callback = c.rx_callback ∧
      (InRange c.tx_buffer → InRange c2.tx_buffer) ∧
      (c.tx_buffer.head < RING_BUF_SIZE →
        ∀ w, (ring_buf_comm_write (some c) data data_len written_len).written_len = some w →
        ∀ p, (∀ q, q < w → p ≠ (c.tx_buffer.head + q) % RING_BUF_SIZE) →
          c2.tx_buffer.buffer p = c.tx_buffer.buffer p) := by
  cases data <;> cases written_len <;>
    try exact ⟨c, rfl, rfl, rfl, rfl, rfl, rfl, rfl, fun h => h, fun _ _ _ _ _ => rfl⟩
  rename_i d wl
  rw [write_valid]
  obtain ⟨h1, h2, -⟩ := write_loop_frame d data_len 0 c.tx_buffer 0
  refine ⟨_, rfl, rfl, h1, h2, rfl, rfl, rfl, ?_, ?_⟩
  · intro hr
    exact (write_loop_spec d data_len 0 c.tx_buffer 0 hr).2.2.1
  · intro hh w hw p hp
    simp only [Option.some.injEq] at hw
    subst hw
    exact write_loop_storage d data_len 0 c.tx_buffer 0 hh p (by simpa using hp)

/-- What one call of the module preserves: a clear overflow flag stays clear
and indices in range stay in range, per ring buffer. -/
theorem step_frame (c : RingBufComm) (op : Op) :
    ∃ c2, step (some c) op = some c2 ∧
      (c.rx_buffer.overflow = false → c2.rx_buffer.overflow = false) ∧
      (c.tx_buffer.overflow = false → c2.tx_buffer.overflow = false) ∧
      (InRange c.rx_buffer → InRange c2.rx_buffer) ∧
      (InRange c.tx_buffer → InRange c2.tx_buffer) := by
  cases op with
  | init =>
    exact ⟨ring_buf_comm_init c, rfl, fun _ => rfl, fun _ => rfl,
      fun _ => ⟨RING_BUF_SIZE_pos, RING_BUF_SIZE_pos⟩,
      fun _ => ⟨RING_BUF_SIZE_pos, RING_BUF_SIZE_pos⟩⟩
  | read rcvr rcvr_len terminator read_len overflow peek =>
    obtain ⟨c2, e, h1, -, h3, -, -, -, h7, h8⟩ :=
      read_comm_frame c rcvr rcvr_len terminator read_len overflow peek
    refine ⟨c2, e, h7, fun h => by rw [h1]; exact h, fun hr => ⟨?_, h8 hr.2⟩,
      fun hr => by rw [h1]; exact hr⟩
    rw [h3]
    exact hr.1
  | write data data_len written_len =>
    obtain ⟨c2, e, h1, -, h3, -, -, -, h7, -⟩ := write_comm_frame c data data_len written_len
    exact ⟨c2, e, fun h => by rw [h1]; exact h, fun h => by rw [h3]; exact h,
      fun hr => by rw [h1]; exact hr, h7⟩
  | set_callback callback =>
    exact ⟨{ c with rx_callback := callback }, rfl, fun h => h, fun h => h, fun h => h,
      fun h => h⟩

/-- A property of sessions that every call preserves holds after every finite
sequence of calls. -/
theorem run_invariant (P : RingBufComm → Prop)
    (hstep : ∀ c op, P c → ∃ c2, step (some c) op = some c2 ∧ P c2) :
    ∀ (ops : List Op) (c : RingBufComm), P c → ∃ c2, run (some c) ops = some c2 ∧ P c2 := by
  intro ops
  induction ops with
  | nil => intro c hc; exact ⟨c, rfl, hc⟩
  | cons op rest ih =>
    intro c hc
    obtain ⟨c1, e, h1⟩ := hstep c op hc
    obtain ⟨c2, e2, h2⟩ := ih c1 h1
    refine ⟨c2, ?_, h2⟩
    simp only [run, List.foldl_cons, e] at e2 ⊢
    exact e2

/-! ## Overflow flags and the index range over sequences of calls -/

/-- C17. No call of the module sets an overflow flag: if the overflow flag of
the receive buffer (respectively of the transmit buffer) is false before a
call of `ring_buf_comm_init`, `ring_buf_comm_read`, `ring_buf_comm_write` or
`ring_buf_comm_set_callback` with any arguments, it is false after it; so
after every finite sequence of such calls on an initialised session both
overflow flags are false. -/
theorem overflow_never_set (c : RingBufComm) (op : Op) :
    (c.rx_buffer.overflow = false →
      ∃ c2, step (some c) op = some c2 ∧ c2.rx_buffer.overflow = false) ∧
    (c.tx_buffer.overflow = false →
      ∃ c2, step (some c) op = some c2 ∧ c2.tx_buffer.overflow = false) ∧
    ∀ (s : RingBufComm) (ops : List Op),
      ∃ c2, run (some (ring_buf_comm_init s)) ops = some c2 ∧
        c2.rx_buffer.overflow = false ∧ c2.tx_buffer.overflow = false := by
  obtain ⟨c2, e, h1, h2, -, -⟩ := step_frame c op
  refine ⟨fun h => ⟨c2, e, h1 h⟩, fun h => ⟨c2, e, h2 h⟩, fun s ops => ?_⟩
  exact run_invariant (fun x => x.rx_buffer.overflow = false ∧ x.tx_buffer.overflow = false)
    (fun x o hx => by
      obtain ⟨x2, e2, g1, g2, -, -⟩ := step_frame x o
      exact ⟨x2, e2, g1 hx.1, g2 hx.2⟩)
    ops (ring_buf_comm_init s) ⟨rfl, rfl⟩

/-- Witness for C17: a destructive read that does not find the terminator, on a
session with both overflow flags clear. -/
theorem overflow_never_set_witness :
    abComm.rx_buffer.overflow = false ∧ abComm.tx_buffer.overflow = false ∧
    (∃ c2, step (some abComm)
        (Op.read (some zeroStore) 16 (some newline) (some 0) (some false) false) = some c2 ∧
      c2.rx_buffer.overflow = false) ∧
    (∃ c2, step (some abComm)
        (Op.read (some zeroStore) 16 (some newline) (some 0) (some false) false) = some c2 ∧
      c2.tx_buffer.overflow = false) :=
  ⟨rfl, rfl,
    (overflow_never_set abComm
      (Op.read (some zeroStore) 16 (some newline) (some 0) (some false) false)).1 rfl,
    (overflow_never_set abComm
      (Op.read (some zeroStore) 16 (some newline) (some 0) (some false) false)).2.1 rfl⟩

/-- C18. The predicate that the write index and the read index of both ring
buffers lie in `[0, RING_BUF_SIZE)` holds after `ring_buf_comm_init`, is
preserved by every call with any arguments and so by every finite sequence of
calls; and for a ring buffer with indices in range `ring_buf_available` is
`(head - tail) mod RING_BUF_SIZE`, at most `RING_BUF_SIZE - 1`, and 0 exactly
when the two indices are equal. -/
theorem index_range_invariant (c : RingBufComm) (op : Op) (rb : RingBuffer) :
    (∀ s, InRange (ring_buf_comm_init s).rx_buffer ∧ InRange (ring_buf_comm_init s).tx_buffer) ∧
    (InRange c.rx_buffer ∧ InRange c.tx_buffer →
      ∃ c2, step (some c) op = some c2 ∧ InRange c2.rx_buffer ∧ InRange c2.tx_buffer) ∧
    (InRange c.rx_buffer ∧ InRange c.tx_buffer → ∀ ops : List Op,
      ∃ c2, run (some c) ops = some c2 ∧ InRange c2.rx_buffer ∧ InRange c2.tx_buffer) ∧
    (InRange rb →
      (ring_buf_available rb : Int)
        = ((rb.head : Int) - (rb.tail : Int)) % (RING_BUF_SIZE : Int) ∧
      ring_buf_available rb ≤ RING_BUF_SIZE - 1 ∧
      (ring_buf_available rb = 0 ↔ rb.head = rb.tail)) := by
  have hstep : ∀ x o, InRange x.rx_buffer ∧ InRange x.tx_buffer →
      ∃ x2, step (some x) o = some x2 ∧ InRange x2.rx_buffer ∧ InRange x2.tx_buffer := by
    intro x o hx
    obtain ⟨x2, e2, -, -, g3, g4⟩ := step_frame x o
    exact ⟨x2, e2, g3 hx.1, g4 hx.2⟩
  refine ⟨fun s => ⟨⟨RING_BUF_SIZE_pos, RING_BUF_SIZE_pos⟩,
      ⟨RING_BUF_SIZE_pos, RING_BUF_SIZE_pos⟩⟩, hstep c op,
    fun h ops => run_invariant _ hstep ops c h, fun hr => ?_⟩
  have hav := available_of_inRange rb hr
  obtain ⟨hh, ht⟩ := hr
  simp only [RING_BUF_SIZE] at *
  refine ⟨?_, ?_, ?_⟩
  · rw [hav]
    push_cast
    omega
  · omega
  · omega

/-- Witness for C18: a destructive read across the wrap point keeps the indices
in range. -/
theorem index_range_invariant_witness :
    (InRange wrapComm.rx_buffer ∧ InRange wrapComm.tx_buffer) ∧
    (∃ c2, step (some wrapComm)
        (Op.read (some zeroStore) 16 (some newline) (some 0) (some false) false) = some c2 ∧
      InRange c2.rx_buffer ∧ InRange c2.tx_buffer) ∧
    ring_buf_available wrapComm.rx_buffer ≤ RING_BUF_SIZE - 1 :=
  ⟨⟨by unfold InRange; decide, by unfold InRange; decide⟩,
    (index_range_invariant wrapComm
      (Op.read (some zeroStore) 16 (some newline) (some 0) (some false) false)
      wrapComm.rx_buffer).2.1 ⟨by unfold InRange; decide, by unfold InRange; decide⟩,
    ((index_range_invariant wrapComm
      (Op.read (some zeroStore) 16 (some newline) (some 0) (some false) false)
      wrapComm.rx_buffer).2.2.2 (by unfold InRange; decide)).2.1⟩

/-! ## Peek against destructive read, direction independence -/

/-- C19. From the same state and with the same arguments, `ring_buf_comm_read`
with `peek = true` and with `peek = false` return the same value, the same
`*read_len`, the same `*overflow` and the same destination contents; the two
resulting sessions differ at most in the read index and the overflow flag of
the receive buffer. -/
theorem peek_predicts_read (comm : Option RingBufComm) (rcvr : Option (Nat → Byte))
    (cap : Nat) (terminator : Option (List Byte)) (read_len : Option Nat)
    (overflow : Option Bool) :
    (ring_buf_comm_read comm rcvr cap terminator read_len overflow true).ret
      = (ring_buf_comm_read comm rcvr cap terminator read_len overflow false).ret ∧
    (ring_buf_comm_read comm rcvr cap terminator read_len overflow true).read_len
      = (ring_buf_comm_read comm rcvr cap terminator read_len overflow false).read_len ∧
    (ring_buf_comm_read comm rcvr cap terminator read_len overflow true).overflow
      = (ring_buf_comm_read comm rcvr cap terminator read_len overflow false).overflow ∧
    (ring_buf_comm_read comm rcvr cap terminator read_len overflow true).rcvr
      = (ring_buf_comm_read comm rcvr cap terminator read_len overflow false).rcvr ∧
    (ring_buf_comm_read comm rcvr cap terminator read_len overflow true).comm.map erase_rx_cursor
      = (ring_buf_comm_read comm rcvr cap terminator read_len overflow false).comm.map
          erase_rx_cursor := by
  cases comm <;> cases rcvr <;> cases read_len <;> cases terminator <;> cases overflow <;>
    try exact ⟨rfl, rfl, rfl, rfl, rfl⟩
  rename_i c dst rl tm ov
  rw [read_valid, read_valid]
  by_cases h0 : ring_buf_available c.rx_buffer = 0
  · simp only [h0, if_true, and_self]
  · simp only [h0, if_false, true_and, Option.map_some', Option.some.injEq]
    cases (read_loop c.rx_buffer tm (strlen tm) cap (ring_buf_available c.rx_buffer) dst 0
      c.rx_buffer.tail).found_terminator <;> rfl

/-- C20. `ring_buf_comm_read`, with any arguments, leaves the transmit buffer,
the storage and the write index of the receive buffer, `terminator`,
`rx_callback_threshold` and `rx_callback` as they were.
`ring_buf_comm_write`, with any arguments, leaves the receive buffer, the read
index and the overflow flag of the transmit buffer, `terminator`,
`rx_callback_threshold` and `rx_callback` as they were, and (the write index
being in range) changes the transmit storage at no position other than
`(head + q) mod RING_BUF_SIZE` for `q < *written_len`. -/
theorem direction_independence (c : RingBufComm) (rcvr data : Option (Nat → Byte))
    (cap data_len : Nat) (terminator : Option (List Byte)) (read_len written_len : Option Nat)
    (overflow : Option Bool) (peek : Bool) :
    (∃ c2, (ring_buf_comm_read (some c) rcvr cap terminator read_len overflow peek).comm
        = some c2 ∧
      c2.tx_buffer = c.tx_buffer ∧ c2.rx_buffer.buffer = c.rx_buffer.buffer ∧
      c2.rx_buffer.head = c.rx_buffer.head ∧ c2.terminator = c.terminator ∧
      c2.rx_callback_threshold = c.rx_callback_threshold ∧ c2.rx_callback = c.rx_callback) ∧
    (∃ c2, (ring_buf_comm_write (some c) data data_len written_len).comm = some c2 ∧
      c2.rx_buffer = c.rx_buffer ∧ c2.tx_buffer.tail = c.tx_buffer.tail ∧
      c2.tx_buffer.overflow = c.tx_buffer.overflow ∧ c2.terminator = c.terminator ∧
      c2.rx_callback_threshold = c.rx_callback_threshold ∧ c2.rx_callback = c.rx_callback ∧
      (c.tx_buffer.head < RING_BUF_SIZE →
        ∀ w, (ring_buf_comm_write (some c) data data_len written_len).written_len = some w →
        ∀ p, (∀ q, q < w → p ≠ (c.tx_buffer.head + q) % RING_BUF_SIZE) →
          c2.tx_buffer.buffer p = c.tx_buffer.buffer p)) := by
  obtain ⟨c2, e, h1, h2, h3, h4, h5, h6, -, -⟩ :=
    read_comm_frame c rcvr cap terminator read_len overflow peek
  obtain ⟨c3, e3, g1, g2, g3, g4, g5, g6, -, g8⟩ :=
    write_comm_frame c data data_len written_len
  exact ⟨⟨c2, e, h1, h2, h3, h4, h5, h6⟩, ⟨c3, e3, g1, g2, g3, g4, g5, g6, g8⟩⟩

/-- Witness for C20: three bytes written at write index 0 leave the receive
buffer and position 3 of the transmit storage as they were. -/
theorem direction_independence_witness :
    wrapComm.tx_buffer.head < RING_BUF_SIZE ∧
    (ring_buf_comm_write (some wrapComm) (some wrapStore) 3 (some 0)).written_len = some 3 ∧
    ∃ c2, (ring_buf_comm_write (some wrapComm) (some wrapStore) 3 (some 0)).comm = some c2 ∧
      c2.rx_buffer = wrapComm.rx_buffer ∧
      c2.tx_buffer.buffer 3 = wrapComm.tx_buffer.buffer 3 :=
  ⟨by decide, by decide,
    match (direction_independence wrapComm (some zeroStore) (some wrapStore) 16 3 (some newline)
      (some 0) (some 0) (some false) false).2 with
    | ⟨c2, e, g1, _, _, _, _, _, g8⟩ =>
      ⟨c2, e, g1, g8 (by decide) 3 (by decide) 3 (by decide)⟩⟩

end RingBuf
